import Mathlib

/-!
Verification development for the row-based texture-atlas allocator
(`rts/Rendering/Textures/RowAtlasAlloc.cpp`).

The C++ code is shallowly embedded: machine `int` values become `Int`
(the value ranges reached by the algorithm stay far below `2^31`, so no
wrap-around modelling is needed), the mutable allocator object becomes an
explicit `AllocState` record that every operation threads through, and the
two `while` loops that can genuinely fail to terminate (the estimator's and
`AddRow`'s doubling loops) are given as fuel-indexed functions whose `none`
result models non-termination or an undefined run; each call site supplies
a fuel bound that is proved sufficient whenever the C++ loop terminates on
the states the theorems speak about.

Floating point: the code uses `float` in exactly two places.  The slack
test `spaceFree < spaceNeeded * 1.2f` is embedded with full IEEE binary32
semantics (`slackLt`): `1.2f` is exactly `5033165 / 2^22`, the `int`
operands are converted to `float` by rounding to 24 significant bits, the
product is rounded again (round to nearest, ties to even), and the final
comparison of the two dyadic rationals is exact — the rounding of the
product is observable (`10 * 1.2f` is exactly `12.0f`), so no exact
rational shortcut is taken.  The row ratio `float(row.height) / glyphHeight`
with its `10000.0f` sentinel is embedded as integer comparisons on heights:
every ratio comparison in one `FindRow` call shares the single positive
denominator `glyphHeight`, `h1/g < h2/g ↔ h1 < h2` and `h1/g = h2/g ↔
h1 = h2`, and with heights below `2^23` (far above any reachable texture
size) both the quotients and the order embedding are exact in binary32.
-/

set_option maxHeartbeats 1000000
set_option maxRecDepth 4000

namespace RowAtlas

/-- 2D integer vector, modelling the C++ `int2` used for sizes. -/
structure Int2 where
  x : Int
  y : Int
deriving DecidableEq

/-- Output rectangle of an atlas entry, modelling the four components
`x1, y1, x2, y2` of `SAtlasEntry::texCoords` that `Allocate` writes
(the code stores them in a `float4`; the written values are integers). -/
structure TexRect where
  x1 : Int
  y1 : Int
  x2 : Int
  y2 : Int
deriving DecidableEq

/-- An atlas entry: unique name, requested pixel size, output rectangle
(`SAtlasEntry` from the allocator interface). -/
structure SAtlasEntry where
  name : String
  size : Int2
  texCoords : TexRect
deriving DecidableEq

/-- `CRowAtlasAlloc::Row`: vertical position, fixed height, and the
used-width cursor (called `width` in the C++ code). -/
structure Row where
  position : Int
  height : Int
  width : Int
deriving DecidableEq

/-- The allocator state: current surface size `atlasSize`, configured
maximum `maxsize`, configured mip level count `numLevels`, the next free
row position, the row store, and the entry registry.  The C++ registry is
a map keyed by the entry name; it is modelled as a list, and theorems that
need key uniqueness assume `Nodup` names. -/
structure AllocState where
  atlasSize : Int2
  maxsize : Int2
  numLevels : Int
  nextRowPos : Int
  imageRows : List Row
  entries : List SAtlasEntry
deriving DecidableEq

/-- `CRowAtlasAlloc::CompareTex`: height descending, then width descending,
then name descending. -/
def compareTex (t1 t2 : SAtlasEntry) : Bool :=
  if t1.size.y > t2.size.y then true
  else if t2.size.y > t1.size.y then false
  else if t1.size.x > t2.size.x then true
  else if t2.size.x > t1.size.x then false
  else if t1.name > t2.name then true
  else false

/-- Bit counting by repeated halving: `bitWidthAux fuel n` is the number of
binary digits of `n`, for any `n < 2 ^ fuel` (structural recursion on the
fuel so that the kernel can evaluate it; 32 steps cover the whole
`uint32_t` domain the C++ operates on). -/
def bitWidthAux : Nat → Nat → Nat
  | 0, _ => 0
  | fuel + 1, n => if n = 0 then 0 else bitWidthAux fuel (n / 2) + 1

/-- `std::bit_width` on `uint32_t` values: 0 for 0, otherwise
`floor(log2 n) + 1`. -/
def bitWidthN (n : Nat) : Nat := bitWidthAux 32 n

/-- `std::bit_ceil` on `uint32_t` values: the smallest power of two that is
not less than `n` (1 for 0 and 1). -/
def bitCeilN (n : Nat) : Nat := if n ≤ 1 then 1 else 2 ^ bitWidthAux 32 (n - 1)

/-- `std::bit_ceil <uint32_t>(atlasSize.y)` as used at the top of
`Allocate`; the cast of a negative height would be C++
implementation-defined territory, modelled here via `Int.toNat`. -/
def bitCeilI (y : Int) : Int := Int.ofNat (bitCeilN y.toNat)

/-- Modelled from the spec: `GetMinDim` is declared in the allocator's class
header, which is not part of this excerpt; per spec §4.4 step 4 the mip
level count is derived from the smallest dimension over the registered
entries, so `getMinDim` returns the minimum over all entries of
`min(width, height)`.  For an empty registry the fold starts from
`2^31 - 1` (`INT_MAX`); that value is unobservable, since the padding it
feeds into only affects placed entries. -/
def getMinDim (entries : List SAtlasEntry) : Int :=
  (entries.map (fun e => min e.size.x e.size.y)).foldr min (2 ^ 31 - 1)

/-- `CRowAtlasAlloc::GetNumTexLevels`:
`min(bit_width(uint32(GetMinDim())), numLevels)`.  A negative minimum
dimension would cast to a huge `uint32_t` in C++; the model clamps it with
`Int.toNat` (all theorems stay in the nonnegative range). -/
def getNumTexLevels (s : AllocState) : Int :=
  min (Int.ofNat (bitWidthN (getMinDim s.entries).toNat)) s.numLevels

/-- `int padding = 1 << GetNumTexLevels()` from `Allocate`; shifting by a
negative count would be C++ UB, modelled via `Int.toNat` on the exponent. -/
def paddingOf (s : AllocState) : Int := 2 ^ (getNumTexLevels s).toNat

/-- `spaceNeeded`: the accumulation loop
`for (entry) spaceNeeded += size.x * size.y`. -/
def spaceNeededOf (entries : List SAtlasEntry) : Int :=
  entries.foldl (fun acc e => acc + e.size.x * e.size.y) 0

/-- The initial `spaceFree` of `EstimateNeededSize`: starts from the area
below the next free row position, then the loop
`for (row) spaceFree += row.height * (atlasSize.x - row.width)`. -/
def spaceFreeOf (s : AllocState) : Int :=
  s.imageRows.foldl (fun acc r => acc + r.height * (s.atlasSize.x - r.width))
    (s.atlasSize.x * (s.atlasSize.y - s.nextRowPos))

/-- Round-to-nearest, ties-to-even, of the integer `v` to 24 significant
bits — the IEEE binary32 (`float`) rounding of a value whose significand is
`v` (scaling by a power of two moves only the exponent, never the
significand, so the same function rounds `v` and `v / 2^22`).  Exact (the
identity) for `v < 2^24`.  The 64-step bit count covers every value this
development feeds in: the C++ operands are 32-bit `int`s, so the products
rounded here stay below `2^31 · 2^23 = 2^54`. -/
def rne24 (v : Nat) : Nat :=
  let L := bitWidthAux 64 v
  if L ≤ 24 then v
  else
    let k := L - 24
    let q := v / 2 ^ k
    let r := v % 2 ^ k
    let half := 2 ^ (k - 1)
    if r < half then q * 2 ^ k
    else if half < r then (q + 1) * 2 ^ k
    else (q + q % 2) * 2 ^ k

/-- The exact value of `(float) n` for an integer `n`: the `int` → `float`
conversion rounds to 24 significant bits (to nearest, ties to even; it is
the identity below `2^24`).  Rounding is symmetric under negation. -/
def f32ofInt (n : Int) : Int :=
  if 0 ≤ n then Int.ofNat (rne24 n.toNat) else - Int.ofNat (rne24 (-n).toNat)

/-- The exact value, scaled by `2^22`, of the `float` product
`(float) needed * 1.2f`: `1.2f` is exactly `5033165 / 2^22`, so the exact
product is `(f32 needed) * 5033165 / 2^22`, and IEEE multiplication rounds
it to 24 significant bits — which is `rne24` of the numerator, the `2^22`
scale shifting only the exponent.  No overflow or subnormals arise on the
C++ `int` domain: the magnitude is either `0` or between `1.2` and
`~2^31.3`, well inside binary32 range. -/
def mul12f (needed : Int) : Int :=
  if 0 ≤ needed then Int.ofNat (rne24 (rne24 needed.toNat * 5033165))
  else - Int.ofNat (rne24 (rne24 (-needed).toNat * 5033165))

/-- The estimator's guard `spaceFree < spaceNeeded * 1.2f`, with full
binary32 semantics: both `int` operands convert to `float` (rounding to 24
bits), the product is rounded again, and the comparison of the two
resulting dyadic rationals is exact once both are scaled by `2^22`
(`4194304`).  The rounding of the product matters: e.g. `10 * 1.2f` is
exactly `12.0f`, so at `free = 12, needed = 10` the C++ guard is false
although the exact rational `12 < 10 × 1.2` holds. -/
def slackLt (free needed : Int) : Prop :=
  f32ofInt free * 4194304 < mul12f needed

instance (free needed : Int) : Decidable (slackLt free needed) :=
  inferInstanceAs (Decidable (_ < _))

/-- One execution of the body of the estimator's doubling loop.  Note the
guards `(atlasSize.x << 1) <= maxsize.x`: an axis only doubles when the
doubled value still fits under the maximum, so the `std::min` clamps are
dead code and an axis whose maximum is not reachable by doubling simply
stops growing.  The height guard reads the original height but the freed
area added for the height doubling uses the already-updated width, exactly
as in the C++ statement order. -/
def estStep (m : Int2) (af : Int2 × Int) : Int2 × Int :=
  let step1 : Int2 × Int :=
    if af.1.x * 2 ≤ m.x then (⟨min m.x (af.1.x * 2), af.1.y⟩, af.2 + af.1.x * af.1.y)
    else af
  if step1.1.y * 2 ≤ m.y then
    (⟨step1.1.x, min m.y (step1.1.y * 2)⟩, step1.2 + step1.1.x * step1.1.y)
  else step1

/-- The estimator's `while` loop, fuel-indexed.  Exits are checked before
fuel is consumed; `none` (fuel exhausted on a loop that keeps running)
models a non-terminating C++ loop wherever the supplied fuel has been
proved sufficient for every terminating run. -/
def estLoopF (m : Int2) (needed : Int) : Nat → Int2 → Int → Option (Int2 × Int)
  | fuel, a, free =>
    if ¬ slackLt free needed then some (a, free)
    else if m.x ≤ a.x ∧ m.y ≤ a.y then some (a, free)
    else
      match fuel with
      | 0 => none
      | n + 1 => estLoopF m needed n (estStep m (a, free)).1 (estStep m (a, free)).2

/-- Fuel bound for the doubling loops: each iteration of a terminating run
strictly shrinks `(max.x - x) + (max.y - y)`. -/
def estFuel (m a : Int2) : Nat := (m.x - a.x).toNat + (m.y - a.y).toNat + 1

/-- `CRowAtlasAlloc::EstimateNeededSize`: computes `spaceNeeded` and the
initial `spaceFree`, then runs the doubling loop; only `atlasSize` is
mutated. -/
def estimateNeededSize (s : AllocState) : Option AllocState :=
  match estLoopF s.maxsize (spaceNeededOf s.entries)
      (estFuel s.maxsize s.atlasSize) s.atlasSize (spaceFreeOf s) with
  | none => none
  | some (a, _) => some { s with atlasSize := a }

/-- The resize step inside `AddRow`'s loop: both axes double, each
independently clamped to its maximum. -/
def growA (m a : Int2) : Int2 := ⟨min m.x (a.x * 2), min m.y (a.y * 2)⟩

/-- `AddRow`'s `while` loop, fuel-indexed: while the current height cannot
host a new row of height `h` at `nrp`, fail if both axes are at their
maxima, otherwise grow.  `some (a, true)` means the row can be appended
with the surface grown to `a`; `some (a, false)` is the `nullptr` result. -/
def addRowLoopF (m : Int2) (nrp h : Int) : Nat → Int2 → Option (Int2 × Bool)
  | fuel, a =>
    if a.y < nrp + h then
      if m.x ≤ a.x ∧ m.y ≤ a.y then some (a, false)
      else
        match fuel with
        | 0 => none
        | n + 1 => addRowLoopF m nrp h n (growA m a)
    else some (a, true)

/-- `CRowAtlasAlloc::AddRow`.  The `glyphWidth` argument is accepted and
ignored, exactly as in the C++ function.  On success the new row is
appended at `position = nextRowPos` with `height = glyphHeight` and a zero
used-width cursor, `nextRowPos` advances, and the row's index is returned
(the C++ code returns a pointer to the appended element). -/
def addRow (s : AllocState) (glyphWidth glyphHeight : Int) :
    Option (AllocState × Option Nat) :=
  match addRowLoopF s.maxsize s.nextRowPos glyphHeight
      (estFuel s.maxsize s.atlasSize) s.atlasSize with
  | none => none
  | some (a, false) => some ({ s with atlasSize := a }, none)
  | some (a, true) =>
      some ({ s with atlasSize := a,
                     imageRows := s.imageRows ++ [⟨s.nextRowPos, glyphHeight, 0⟩],
                     nextRowPos := s.nextRowPos + glyphHeight },
            some s.imageRows.length)

/-- The comparison `ratio < bestRatio` of `FindRow`, in exact arithmetic.
`bh = none` encodes the initial `bestRatio = 10000.0f`; all ratios in one
call share the positive denominator `gh`, so `h/gh < b/gh ↔ h < b` and
`h/gh < 10000 ↔ h < 10000 * gh`. -/
def ratioLtB (gh h : Int) : Option Int → Bool
  | none => decide (h < 10000 * gh)
  | some b => decide (h < b)

/-- The comparison `ratio == bestRatio` of `FindRow`, in exact arithmetic
(see `ratioLtB`). -/
def ratioEqB (gh h : Int) : Option Int → Bool
  | none => decide (h = 10000 * gh)
  | some b => decide (h = b)

/-- The row scan of `FindRow`: walk the row store keeping the best
`(bestWidth, bestRatio, bestRow)` triple; `bh = none` encodes the initial
`bestRatio = 10000.0f`, and the best row is tracked by index `i`.  A row is
skipped when the requested width exceeds the remaining width or the
requested height exceeds the row height; otherwise it replaces the best on
a strictly smaller ratio, or on an equal ratio with a strictly smaller
used-width cursor. -/
def findScan (ax gw gh : Int) :
    List Row → Nat → Int → Option Int → Option Nat → Int × Option Int × Option Nat
  | [], _, bw, bh, br => (bw, bh, br)
  | r :: rs, i, bw, bh, br =>
    if gw > ax - r.width then findScan ax gw gh rs (i + 1) bw bh br
    else if gh > r.height then findScan ax gw gh rs (i + 1) bw bh br
    else if ratioLtB gh r.height bh || (ratioEqB gh r.height bh && decide (r.width < bw)) then
      findScan ax gw gh rs (i + 1) r.width (some r.height) (some i)
    else findScan ax gw gh rs (i + 1) bw bh br

/-- `CRowAtlasAlloc::FindRow`: scan the rows starting from
`bestWidth = atlasSize.x`, `bestRatio = 10000.0f`, `bestRow = nullptr`;
if the scan selected no row, delegate to `AddRow`. -/
def findRow (s : AllocState) (gw gh : Int) : Option (AllocState × Option Nat) :=
  match findScan s.atlasSize.x gw gh s.imageRows 0 s.atlasSize.x none none with
  | (_, _, some i) => some (s, some i)
  | (_, _, none) => addRow s gw gh

/-- Write `texCoords` of the entry named `n`.  The C++ code writes through a
pointer into the name-keyed registry, which holds exactly one entry per
name; the model maps over the list, which touches exactly that entry
whenever names are `Nodup`. -/
def setEntryRect (n : String) (rect : TexRect) (l : List SAtlasEntry) :
    List SAtlasEntry :=
  l.map fun e => if e.name = n then { e with texCoords := rect } else e

/-- Registry lookup `entries[name]` (the name is always present when the
code performs it). -/
def lookupEntry (n : String) (l : List SAtlasEntry) : Option SAtlasEntry :=
  l.find? fun e => e.name == n

/-- Insertion into `std::set<std::string>`: keep the list sorted and
duplicate-free. -/
def setInsert (n : String) : List String → List String
  | [] => [n]
  | m :: ms =>
    if n < m then n :: m :: ms
    else if m < n then m :: setInsert n ms
    else m :: ms

/-- The `sortedNames` set built in `Allocate`: every registry key inserted
into a `std::set`, i.e. the sorted duplicate-free list of names. -/
def namesSorted (l : List SAtlasEntry) : List String :=
  l.foldl (fun acc e => setInsert e.name acc) []

/-- The non-strict comparator induced by the strict `CompareTex`:
`std::stable_sort(…, CompareTex)` puts `a` at-or-before `b` exactly when
`CompareTex b a` does not hold of the pair in reversed order. -/
def texLe (a b : SAtlasEntry) : Bool := ! compareTex b a

/-- Stable insertion of `x` into an already sorted list: `x` goes after
every element strictly before it under `cmp`, and before the first element
that is not, so elements the comparator cannot distinguish keep their
input order. -/
def insertByCmp (cmp : SAtlasEntry → SAtlasEntry → Bool) (x : SAtlasEntry) :
    List SAtlasEntry → List SAtlasEntry
  | [] => [x]
  | y :: l => if cmp y x then y :: insertByCmp cmp x l else x :: y :: l

/-- Stable sort by the strict comparator `cmp`.  `std::stable_sort`
specifies its output order uniquely for a strict weak order (sorted by the
comparator, ties in input order); this structurally recursive stable
insertion sort computes exactly that order and stands in for the C++
library call. -/
def stableSortByCmp (cmp : SAtlasEntry → SAtlasEntry → Bool) :
    List SAtlasEntry → List SAtlasEntry
  | [] => []
  | x :: l => insertByCmp cmp x (stableSortByCmp cmp l)

/-- The `memtextures` vector of `Allocate`: the entries listed by sorted
name, then stably sorted by `CompareTex`. -/
def processingOrder (l : List SAtlasEntry) : List SAtlasEntry :=
  stableSortByCmp compareTex ((namesSorted l).filterMap (fun n => lookupEntry n l))

/-- The placement loop of `Allocate` over the sorted entries.  For each
entry, `FindRow` is asked for `(width + padding, height + padding)`; on a
`nullptr` result the pass is marked failed and the entry skipped; otherwise
the rectangle is written from the row's cursor and position, and the
cursor advances by the padded width.  `outs` additionally records, per
processed entry, the rectangle written (or `none` on failure) — pure
instrumentation used by the theorems; it influences neither the state nor
the success flag. -/
def placeAll (padding : Int) :
    List SAtlasEntry → AllocState → Bool → List (String × Option TexRect) →
      Option (AllocState × Bool × List (String × Option TexRect))
  | [], s, ok, outs => some (s, ok, outs)
  | e :: rest, s, ok, outs =>
    match findRow s (e.size.x + padding) (e.size.y + padding) with
    | none => none
    | some (s', none) => placeAll padding rest s' false (outs ++ [(e.name, none)])
    | some (s', some i) =>
      let row := s'.imageRows.getD i ⟨0, 0, 0⟩
      let rect : TexRect :=
        ⟨row.width, row.position, row.width + e.size.x, row.position + e.size.y⟩
      let s'' : AllocState :=
        { s' with
          entries := setEntryRect e.name rect s'.entries,
          imageRows := s'.imageRows.set i
            { row with width := row.width + (e.size.x + padding) } }
      placeAll padding rest s'' ok (outs ++ [(e.name, some rect)])

/-- Result of one `Allocate` pass: final state, the returned success flag,
and the instrumented per-entry outcomes in processing order. -/
structure AllocResult where
  state : AllocState
  success : Bool
  outcomes : List (String × Option TexRect)
deriving DecidableEq

/-- `CRowAtlasAlloc::Allocate`: round the height up to a power of two, run
the estimator, build the deterministic processing order, compute the
padding, place every entry, then tight-fit the height to `nextRowPos`. -/
def allocate (s0 : AllocState) : Option AllocResult :=
  let s1 := { s0 with atlasSize := ⟨s0.atlasSize.x, bitCeilI s0.atlasSize.y⟩ }
  match estimateNeededSize s1 with
  | none => none
  | some s2 =>
    match placeAll (paddingOf s2) (processingOrder s2.entries) s2 true [] with
    | none => none
    | some (s3, ok, outs) =>
      some ⟨{ s3 with atlasSize := ⟨s3.atlasSize.x, s3.nextRowPos⟩ }, ok, outs⟩

/-- Distance of the current surface size below the maxima; the decreasing
measure of both doubling loops. -/
def dimGap (m a : Int2) : Nat := (m.x - a.x).toNat + (m.y - a.y).toNat

/-- Sane surface dimensions: positive and within the maxima.  `AddRow`'s
loop, whose resize step clamps both axes, terminates from any such state. -/
def DimsOk (m a : Int2) : Prop := 1 ≤ a.x ∧ a.x ≤ m.x ∧ 1 ≤ a.y ∧ a.y ≤ m.y

/-- Positive dimensions from which each maximum is reachable by repeated
doubling.  The estimator's loop never clamps, so it can only stop growing
an axis exactly at its maximum when the maximum is such a multiple. -/
def Reachable (m a : Int2) : Prop :=
  1 ≤ a.x ∧ 1 ≤ a.y ∧ (∃ j : ℕ, m.x = a.x * 2 ^ j) ∧ ∃ k : ℕ, m.y = a.y * 2 ^ k

/-- The state produced by a successful `AddRow`: surface grown to `a`, the
new row appended, `nextRowPos` advanced. -/
def addRowState (s : AllocState) (a : Int2) (hh : Int) : AllocState :=
  { s with atlasSize := a,
           imageRows := s.imageRows ++ [⟨s.nextRowPos, hh, 0⟩],
           nextRowPos := s.nextRowPos + hh }

/-- The estimator's `while` loop runs forever from this configuration in
C++: for every fuel value the fuel-indexed model is still running. -/
def estLoopDiverges (m : Int2) (needed : Int) (a : Int2) (free : Int) : Prop :=
  ∀ fuel : Nat, estLoopF m needed fuel a free = none

/-- A configuration whose maxima (24×24) are not power-of-two multiples of
the current surface size (16×16): neither `16*2 ≤ 24` guard ever fires, the
state is stationary, the slack stays unsatisfied, and `atlasSize ≥ maxsize`
never becomes true. -/
def cfgNonPow2 : AllocState :=
  { atlasSize := ⟨16, 16⟩, maxsize := ⟨24, 24⟩, numLevels := 0,
    nextRowPos := 0, imageRows := [],
    entries := [⟨"big", ⟨100, 100⟩, ⟨0, 0, 0, 0⟩⟩] }

/-- The spec's formula (§4.1), written from the spec's words:
`needed = Σ (entry.width × entry.height)`. -/
def specNeeded (s : AllocState) : Int :=
  (s.entries.map fun e => e.size.x * e.size.y).sum

/-- The spec's formula (§4.1), written from the spec's words:
`free = surface.width × (surface.height − nextRowPosition)
      + Σ (row.height × (surface.width − row.usedWidth))`. -/
def specFree (s : AllocState) : Int :=
  s.atlasSize.x * (s.atlasSize.y - s.nextRowPos)
    + (s.imageRows.map fun r => r.height * (s.atlasSize.x - r.width)).sum

/-- A configuration below its maxima (32×32 under 48×48) with the slack
unsatisfied, where the estimator's loop body nevertheless changes nothing:
doubling 32 would overshoot 48, and no clamping to the maximum happens. -/
def cfg48 : AllocState :=
  { atlasSize := ⟨32, 32⟩, maxsize := ⟨48, 48⟩, numLevels := 0,
    nextRowPos := 0, imageRows := [],
    entries := [⟨"big", ⟨100, 100⟩, ⟨0, 0, 0, 0⟩⟩] }

/-- Row eligibility in `FindRow`: the negations of the two `continue`
guards — enough remaining width and enough height. -/
def RowElig (ax gw gh : Int) (r : Row) : Prop :=
  gw ≤ ax - r.width ∧ gh ≤ r.height

instance (ax gw gh : Int) (r : Row) : Decidable (RowElig ax gw gh r) :=
  inferInstanceAs (Decidable (_ ∧ _))

/-- Strict comparison of `(height, width)` selection keys; with the fixed
positive denominator `glyphHeight`, `FindRow`'s float comparison
`ratio < bestRatio || (ratio == bestRatio && width < bestWidth)` is exactly
this lexicographic order on keys. -/
def keyLtP (a b : Int × Int) : Prop := a.1 < b.1 ∨ (a.1 = b.1 ∧ a.2 < b.2)

/-- Non-strict version of `keyLtP`. -/
def keyLeP (a b : Int × Int) : Prop := a.1 < b.1 ∨ (a.1 = b.1 ∧ a.2 ≤ b.2)

/-- The selection key encoded by a scan accumulator: `bh = none` is the
initial `bestRatio = 10000.0f` sentinel, i.e. height `10000 * glyphHeight`. -/
def keyOfAcc (gh bw : Int) (bh : Option Int) : Int × Int := (bh.getD (10000 * gh), bw)

/-- A row store with a single eligible row whose height is 20000× the
requested height: its ratio (20000) is not below the initial
`bestRatio = 10000.0f`, so the scan never selects it. -/
def exTall : AllocState :=
  { atlasSize := ⟨30000, 30000⟩, maxsize := ⟨30000, 30000⟩, numLevels := 0,
    nextRowPos := 20000, imageRows := [⟨0, 20000, 0⟩], entries := [] }

/-- "Strictly greater" in the composite sort key of `CompareTex`: height
descending, then width descending, then name descending. -/
def TexGt (a b : SAtlasEntry) : Prop :=
  b.size.y < a.size.y ∨ (a.size.y = b.size.y ∧
    (b.size.x < a.size.x ∨ (a.size.x = b.size.x ∧ b.name < a.name)))

/-- "At most" in the ascending composite key `(height, width, name)`; the
negation of `TexGt` in the other orientation. -/
def TexLe (a b : SAtlasEntry) : Prop :=
  a.size.y < b.size.y ∨ (a.size.y = b.size.y ∧
    (a.size.x < b.size.x ∨ (a.size.x = b.size.x ∧ a.name ≤ b.name)))

/-- The row-position bookkeeping invariant: `nextRowPos` is the sum of the
heights of all rows created so far. -/
def nrpInv (s : AllocState) : Prop :=
  s.nextRowPos = (s.imageRows.map (fun r => r.height)).sum

instance (s : AllocState) : Decidable (nrpInv s) :=
  inferInstanceAs (Decidable (_ = _))

/-- Input state of the concrete C2 witness run. -/
def c2In : AllocState :=
  ⟨⟨32, 32⟩, ⟨32, 32⟩, 0, 0, [], [⟨"a", ⟨10, 10⟩, ⟨0, 0, 0, 0⟩⟩]⟩

/-- Computed result of the concrete C2 witness run. -/
def c2Out : AllocResult :=
  ⟨⟨⟨32, 11⟩, ⟨32, 32⟩, 0, 11, [⟨0, 11, 11⟩],
    [⟨"a", ⟨10, 10⟩, ⟨0, 0, 10, 10⟩⟩]⟩, true, [("a", some ⟨0, 0, 10, 10⟩)]⟩

/-- The padded rectangles of two placed entries do not intersect: the
padded extent of a placement is `[x1, x2 + p) × [y1, y2 + p)` (the recorded
rectangle is `[x1, x1 + width) × [y1, y1 + height)` and the row cursor
advances by the padded size). -/
def rectsDisjoint (p : Int) (r1 r2 : TexRect) : Prop :=
  r1.x2 + p ≤ r2.x1 ∨ r2.x2 + p ≤ r1.x1 ∨ r1.y2 + p ≤ r2.y1 ∨ r2.y2 + p ≤ r1.y1

instance (p : Int) (r1 r2 : TexRect) : Decidable (rectsDisjoint p r1 r2) :=
  inferInstanceAs (Decidable (_ ∨ _))

/-- The rectangle lies within `[0, W) × [0, H)`. -/
def rectInBounds (W H : Int) (r : TexRect) : Prop :=
  0 ≤ r.x1 ∧ r.x2 ≤ W ∧ 0 ≤ r.y1 ∧ r.y2 ≤ H

instance (W H : Int) (r : TexRect) : Decidable (rectInBounds W H r) :=
  inferInstanceAs (Decidable (_ ∧ _))

/-- Geometric well-formedness of the row store: `nextRowPos` is the height
sum, each row sits at the prefix-sum position of the previous heights, and
each row has a nonnegative height and a cursor within `[0, surfaceWidth]`. -/
def RowsWF (s : AllocState) : Prop :=
  s.nextRowPos = (s.imageRows.map (fun r => r.height)).sum ∧
  ∀ i r, s.imageRows.get? i = some r →
    r.position = ((s.imageRows.map (fun r => r.height)).take i).sum ∧
    0 ≤ r.height ∧ 0 ≤ r.width ∧ r.width ≤ s.atlasSize.x

/-- A recorded successful placement is geometrically accounted for by its
row: padded x-extent below the row's cursor, y-extent inside the row's
band. -/
def PlacedOK (p : Int) (rows : List Row) (o : String × Option TexRect) : Prop :=
  ∀ rect, o.2 = some rect → ∃ i r, rows.get? i = some r ∧
    0 ≤ rect.x1 ∧ rect.x2 + p ≤ r.width ∧
    rect.y1 = r.position ∧ rect.y2 + p ≤ r.position + r.height

/-- Pairwise-disjointness of two outcome records (vacuous unless both
placed). -/
def PDisj (p : Int) (o1 o2 : String × Option TexRect) : Prop :=
  ∀ r1 r2, o1.2 = some r1 → o2.2 = some r2 → rectsDisjoint p r1 r2

/-- One row store extends another: same rows at the same indices (possibly
more appended), with positions and heights unchanged and cursors only
grown. -/
def rowsExtend (l l' : List Row) : Prop :=
  ∀ i r, l.get? i = some r → ∃ r', l'.get? i = some r' ∧
    r'.position = r.position ∧ r'.height = r.height ∧ r.width ≤ r'.width

/-- Input of the C1 counterexample run: a single 50×8 entry on a 16-wide
surface already at its maximum width. -/
def c1Bad : AllocState :=
  ⟨⟨16, 16⟩, ⟨16, 16⟩, 0, 0, [], [⟨"z", ⟨50, 8⟩, ⟨0, 0, 0, 0⟩⟩]⟩

/-- Input of the concrete C1 witness run: an entry that fits. -/
def c1In : AllocState :=
  ⟨⟨32, 32⟩, ⟨64, 64⟩, 0, 0, [], [⟨"a", ⟨10, 8⟩, ⟨0, 0, 0, 0⟩⟩]⟩

instance : IsAntisymm String (· < ·) :=
  ⟨fun a b h1 h2 => absurd h2 (lt_asymm h1)⟩

/-- First registry order of the C8 witness. -/
def c8A : AllocState :=
  ⟨⟨32, 32⟩, ⟨64, 64⟩, 0, 0, [],
    [⟨"a", ⟨10, 8⟩, ⟨0, 0, 0, 0⟩⟩, ⟨"b", ⟨9, 8⟩, ⟨0, 0, 0, 0⟩⟩]⟩

/-- Second registry order of the C8 witness: same entries, swapped. -/
def c8B : AllocState :=
  ⟨⟨32, 32⟩, ⟨64, 64⟩, 0, 0, [],
    [⟨"b", ⟨9, 8⟩, ⟨0, 0, 0, 0⟩⟩, ⟨"a", ⟨10, 8⟩, ⟨0, 0, 0, 0⟩⟩]⟩

/-! ### Theorems -/

/-! ### Termination bookkeeping for the two doubling loops -/

theorem reach_le {v m : Int} (hv : 1 ≤ v) (h : ∃ j : ℕ, m = v * 2 ^ j) : v ≤ m := by
  obtain ⟨j, rfl⟩ := h
  have h1 : (1 : Int) ≤ 2 ^ j := by
    have := pow_pos (show (0:Int) < 2 by norm_num) j
    omega
  calc v = v * 1 := (mul_one v).symm
    _ ≤ v * 2 ^ j := by
      exact mul_le_mul_of_nonneg_left h1 (by omega)

theorem reach_step {v m : Int} (hv : 1 ≤ v) (h : ∃ j : ℕ, m = v * 2 ^ j)
    (hlt : v < m) : v * 2 ≤ m ∧ ∃ j : ℕ, m = v * 2 * 2 ^ j := by
  obtain ⟨j, rfl⟩ := h
  cases j with
  | zero => rw [pow_zero, mul_one] at hlt; exact absurd hlt (lt_irrefl v)
  | succ j' =>
    have h1 : (1 : Int) ≤ 2 ^ j' := by
      have := pow_pos (show (0:Int) < 2 by norm_num) j'
      omega
    have hm : v * 2 ^ (j' + 1) = v * 2 * 2 ^ j' := by ring
    refine ⟨?_, j', hm⟩
    rw [hm]
    calc v * 2 = v * 2 * 1 := by ring
      _ ≤ v * 2 * 2 ^ j' := mul_le_mul_of_nonneg_left h1 (by omega)

theorem growA_ok {m a : Int2} (hq : DimsOk m a)
    (hnm : ¬ (m.x ≤ a.x ∧ m.y ≤ a.y)) :
    DimsOk m (growA m a) ∧ dimGap m (growA m a) < dimGap m a := by
  obtain ⟨h1, h2, h3, h4⟩ := hq
  unfold growA dimGap DimsOk
  simp only []
  omega

theorem estStep_ok {m a : Int2} (free : Int) (hr : Reachable m a)
    (hnm : ¬ (m.x ≤ a.x ∧ m.y ≤ a.y)) :
    Reachable m (estStep m (a, free)).1 ∧
      dimGap m (estStep m (a, free)).1 < dimGap m a := by
  obtain ⟨hx, hy, hjx, hjy⟩ := hr
  have hxm := reach_le hx hjx
  have hym := reach_le hy hjy
  unfold estStep
  by_cases hg1 : a.x * 2 ≤ m.x <;> by_cases hg2 : a.y * 2 ≤ m.y <;>
    simp only [hg1, hg2, if_true, if_false, Reachable, dimGap, if_pos, if_neg,
      not_false_iff] <;> simp [hg1, hg2]
  · -- both axes double
    have hx' := reach_step hx hjx (by omega)
    have hy' := reach_step hy hjy (by omega)
    refine ⟨⟨by omega, by omega, ?_, ?_⟩, by omega⟩
    · obtain ⟨-, j, hj⟩ := hx'
      exact ⟨j, hj⟩
    · obtain ⟨-, k, hk⟩ := hy'
      exact ⟨k, hk⟩
  · -- only the width doubles
    have hx' := reach_step hx hjx (by omega)
    refine ⟨⟨by omega, hy, ?_, hjy⟩, by omega⟩
    obtain ⟨-, j, hj⟩ := hx'
    exact ⟨j, hj⟩
  · -- only the height doubles
    have hy' := reach_step hy hjy (by omega)
    refine ⟨⟨hx, by omega, hjx, ?_⟩, by omega⟩
    obtain ⟨-, k, hk⟩ := hy'
    exact ⟨k, hk⟩
  · -- neither guard fires: both axes must already be at their maxima
    exfalso
    rcases lt_or_ge a.x m.x with hlt | hge
    · exact hg1 (reach_step hx hjx hlt).1
    rcases lt_or_ge a.y m.y with hlt | hge'
    · exact hg2 (reach_step hy hjy hlt).1
    exact hnm ⟨hge, hge'⟩

/-! ### Unfolding equations and termination of the doubling loops -/

theorem estLoopF_exit {m : Int2} {needed free : Int} {a : Int2} (fuel : Nat)
    (h : ¬ slackLt free needed ∨ (m.x ≤ a.x ∧ m.y ≤ a.y)) :
    estLoopF m needed fuel a free = some (a, free) := by
  rcases h with h | h
  · cases fuel <;> simp [estLoopF, h]
  · cases fuel <;> (unfold estLoopF; by_cases hs : slackLt free needed <;> simp [hs, h])

theorem estLoopF_step {m : Int2} {needed free : Int} {a : Int2} (n : Nat)
    (h1 : slackLt free needed) (h2 : ¬ (m.x ≤ a.x ∧ m.y ≤ a.y)) :
    estLoopF m needed (n + 1) a free
      = estLoopF m needed n (estStep m (a, free)).1 (estStep m (a, free)).2 := by
  conv_lhs => unfold estLoopF
  simp [h1, h2]

theorem estLoopF_isSome {m : Int2} (needed : Int) :
    ∀ (fuel : Nat) (a : Int2) (free : Int), Reachable m a → dimGap m a ≤ fuel →
      (estLoopF m needed fuel a free).isSome
  | fuel, a, free, hr, hfuel => by
    by_cases h1 : slackLt free needed
    · by_cases h2 : m.x ≤ a.x ∧ m.y ≤ a.y
      · rw [estLoopF_exit fuel (Or.inr h2)]; rfl
      · obtain ⟨hr', hdec⟩ := estStep_ok free hr h2
        match fuel with
        | 0 => omega
        | n + 1 =>
          rw [estLoopF_step n h1 h2]
          exact estLoopF_isSome needed n _ _ hr' (by omega)
    · rw [estLoopF_exit fuel (Or.inl h1)]; rfl

/-- A value the estimator's loop returns always satisfies one of the two
exit conditions: the slack is satisfied or both axes are at (or above)
their maxima. -/
theorem estLoopF_exit_shape {m : Int2} {needed : Int} :
    ∀ {fuel : Nat} {a : Int2} {free : Int} {a' : Int2} {free' : Int},
      estLoopF m needed fuel a free = some (a', free') →
      ¬ slackLt free' needed ∨ (m.x ≤ a'.x ∧ m.y ≤ a'.y)
  | fuel, a, free, a', free', h => by
    by_cases h1 : slackLt free needed
    · by_cases h2 : m.x ≤ a.x ∧ m.y ≤ a.y
      · rw [estLoopF_exit fuel (Or.inr h2)] at h
        obtain ⟨rfl, rfl⟩ : a = a' ∧ free = free' := by
          simpa using h
        exact Or.inr h2
      · match fuel with
        | 0 =>
          rw [show estLoopF m needed 0 a free = none by
            unfold estLoopF; simp [h1, h2]] at h
          exact absurd h (by simp)
        | n + 1 =>
          rw [estLoopF_step n h1 h2] at h
          exact estLoopF_exit_shape h
    · rw [estLoopF_exit fuel (Or.inl h1)] at h
      obtain ⟨rfl, rfl⟩ : a = a' ∧ free = free' := by simpa using h
      exact Or.inl h1

theorem addRowLoopF_host {m : Int2} {nrp hh : Int} {a : Int2} (fuel : Nat)
    (h : nrp + hh ≤ a.y) :
    addRowLoopF m nrp hh fuel a = some (a, true) := by
  cases fuel <;> (unfold addRowLoopF; rw [if_neg (by omega)])

theorem addRowLoopF_fail {m : Int2} {nrp hh : Int} {a : Int2} (fuel : Nat)
    (h1 : a.y < nrp + hh) (h2 : m.x ≤ a.x ∧ m.y ≤ a.y) :
    addRowLoopF m nrp hh fuel a = some (a, false) := by
  cases fuel <;> (unfold addRowLoopF; rw [if_pos h1, if_pos h2])

theorem addRowLoopF_step {m : Int2} {nrp hh : Int} {a : Int2} (n : Nat)
    (h1 : a.y < nrp + hh) (h2 : ¬ (m.x ≤ a.x ∧ m.y ≤ a.y)) :
    addRowLoopF m nrp hh (n + 1) a = addRowLoopF m nrp hh n (growA m a) := by
  conv_lhs => unfold addRowLoopF
  rw [if_pos h1, if_neg h2]

theorem addRowLoopF_isSome {m : Int2} (nrp hh : Int) :
    ∀ (fuel : Nat) (a : Int2), DimsOk m a → dimGap m a ≤ fuel →
      (addRowLoopF m nrp hh fuel a).isSome
  | fuel, a, hq, hfuel => by
    by_cases h1 : a.y < nrp + hh
    · by_cases h2 : m.x ≤ a.x ∧ m.y ≤ a.y
      · rw [addRowLoopF_fail fuel h1 h2]; rfl
      · obtain ⟨hq', hdec⟩ := growA_ok hq h2
        match fuel with
        | 0 => omega
        | n + 1 =>
          rw [addRowLoopF_step n h1 h2]
          exact addRowLoopF_isSome nrp hh n _ hq' (by omega)
    · rw [addRowLoopF_host fuel (by omega)]; rfl

theorem addRowLoopF_fuel_irrel {m : Int2} (nrp hh : Int) :
    ∀ (n : Nat) {n' : Nat} (a : Int2), DimsOk m a → dimGap m a ≤ n →
      dimGap m a ≤ n' → addRowLoopF m nrp hh n a = addRowLoopF m nrp hh n' a
  | n, n', a, hq, hn, hn' => by
    by_cases h1 : a.y < nrp + hh
    · by_cases h2 : m.x ≤ a.x ∧ m.y ≤ a.y
      · rw [addRowLoopF_fail n h1 h2, addRowLoopF_fail n' h1 h2]
      · obtain ⟨hq', hdec⟩ := growA_ok hq h2
        match n, n' with
        | 0, _ => omega
        | _, 0 => omega
        | k + 1, k' + 1 =>
          rw [addRowLoopF_step k h1 h2, addRowLoopF_step k' h1 h2]
          exact addRowLoopF_fuel_irrel nrp hh k _ hq' (by omega) (by omega)
    · rw [addRowLoopF_host n (by omega), addRowLoopF_host n' (by omega)]

/-! ### `AddRow`-level facts -/

theorem addRow_host {s : AllocState} (w hh : Int)
    (h : s.nextRowPos + hh ≤ s.atlasSize.y) :
    addRow s w hh = some (addRowState s s.atlasSize hh, some s.imageRows.length) := by
  unfold addRow
  rw [addRowLoopF_host _ h]
  rfl

theorem addRow_fail {s : AllocState} (w hh : Int)
    (h1 : s.atlasSize.y < s.nextRowPos + hh)
    (h2 : s.maxsize.x ≤ s.atlasSize.x) (h3 : s.maxsize.y ≤ s.atlasSize.y) :
    addRow s w hh = some (s, none) := by
  unfold addRow
  rw [addRowLoopF_fail _ h1 ⟨h2, h3⟩]

theorem addRow_grow {s : AllocState} (w hh : Int)
    (h1 : s.atlasSize.y < s.nextRowPos + hh)
    (h2 : ¬ (s.maxsize.x ≤ s.atlasSize.x ∧ s.maxsize.y ≤ s.atlasSize.y))
    (hq : DimsOk s.maxsize s.atlasSize) :
    addRow s w hh = addRow { s with atlasSize := growA s.maxsize s.atlasSize } w hh := by
  obtain ⟨hq', hdec⟩ := growA_ok hq h2
  unfold addRow
  simp only []
  rw [show estFuel s.maxsize s.atlasSize = dimGap s.maxsize s.atlasSize + 1 from rfl,
    addRowLoopF_step _ h1 h2,
    addRowLoopF_fuel_irrel s.nextRowPos hh (dimGap s.maxsize s.atlasSize)
      (growA s.maxsize s.atlasSize) hq' (by omega)
      (show dimGap s.maxsize (growA s.maxsize s.atlasSize)
          ≤ estFuel s.maxsize (growA s.maxsize s.atlasSize) by
        unfold estFuel dimGap; omega)]

theorem addRow_isSome {s : AllocState} (w hh : Int)
    (hq : DimsOk s.maxsize s.atlasSize) : (addRow s w hh).isSome := by
  unfold addRow
  have h := addRowLoopF_isSome (m := s.maxsize) s.nextRowPos hh
    (estFuel s.maxsize s.atlasSize) s.atlasSize hq
    (by unfold estFuel dimGap; omega)
  match hres : addRowLoopF s.maxsize s.nextRowPos hh
      (estFuel s.maxsize s.atlasSize) s.atlasSize with
  | none => rw [hres] at h; exact absurd h (by simp)
  | some (a, false) => rfl
  | some (a, true) => rfl

/-- C4: `AddRow` with requested height `h` loops while
`surface.height < nextRowPos + h`: it fails (returns the "no row" sentinel,
here `none`) exactly when both axes are already at their configured maxima,
and otherwise doubles both width and height (each independently clamped to
its maximum) and retries; on success it appends a row with
`position = nextRowPos`, `height = h`, `usedWidth = 0`, advances
`nextRowPos` by `h`, and returns that row.  The three mutually exclusive
loop equations below state exactly this; the retry equation carries the
sane-dimension hypothesis under which the loop provably terminates, so that
both sides denote the same completed run. -/
theorem C4_addRow_contract :
    (∀ (s : AllocState) (w hh : Int), s.nextRowPos + hh ≤ s.atlasSize.y →
      addRow s w hh
        = some (addRowState s s.atlasSize hh, some s.imageRows.length)) ∧
    (∀ (s : AllocState) (w hh : Int), s.atlasSize.y < s.nextRowPos + hh →
      s.maxsize.x ≤ s.atlasSize.x → s.maxsize.y ≤ s.atlasSize.y →
      addRow s w hh = some (s, none)) ∧
    (∀ (s : AllocState) (w hh : Int), s.atlasSize.y < s.nextRowPos + hh →
      ¬ (s.maxsize.x ≤ s.atlasSize.x ∧ s.maxsize.y ≤ s.atlasSize.y) →
      DimsOk s.maxsize s.atlasSize →
      addRow s w hh
        = addRow { s with atlasSize := growA s.maxsize s.atlasSize } w hh) ∧
    (∀ (s : AllocState) (w hh : Int) (s' : AllocState) (i : Nat),
      addRow s w hh = some (s', some i) →
      s'.imageRows = s.imageRows ++ [⟨s.nextRowPos, hh, 0⟩] ∧
      s'.nextRowPos = s.nextRowPos + hh ∧ i = s.imageRows.length ∧
      s'.entries = s.entries ∧ s'.maxsize = s.maxsize) := by
  refine ⟨fun s w hh h => addRow_host w hh h,
    fun s w hh h1 h2 h3 => addRow_fail w hh h1 h2 h3,
    fun s w hh h1 h2 hq => addRow_grow w hh h1 h2 hq,
    fun s w hh s' i h => ?_⟩
  unfold addRow at h
  match hres : addRowLoopF s.maxsize s.nextRowPos hh
      (estFuel s.maxsize s.atlasSize) s.atlasSize with
  | none => rw [hres] at h; exact absurd h (by simp)
  | some (a, false) => rw [hres] at h; simp at h
  | some (a, true) =>
    rw [hres] at h
    simp only [Option.some.injEq, Prod.mk.injEq] at h
    obtain ⟨hs', hi⟩ := h
    subst hs'
    exact ⟨rfl, rfl, hi.symm, rfl, rfl⟩

/-- Witness for C4 at concrete inputs: a host-sized surface appends
directly; a maxed-out surface fails; a growable surface steps. -/
theorem C4_addRow_contract_witness :
    (addRow ⟨⟨32, 32⟩, ⟨64, 64⟩, 0, 10, [], []⟩ 5 7
        = some (addRowState ⟨⟨32, 32⟩, ⟨64, 64⟩, 0, 10, [], []⟩ ⟨32, 32⟩ 7, some 0)) ∧
    (addRow ⟨⟨64, 64⟩, ⟨64, 64⟩, 0, 60, [], []⟩ 5 7 = some (⟨⟨64, 64⟩, ⟨64, 64⟩, 0, 60, [], []⟩, none)) ∧
    (addRow ⟨⟨32, 32⟩, ⟨64, 64⟩, 0, 30, [], []⟩ 5 7
        = addRow ⟨⟨64, 64⟩, ⟨64, 64⟩, 0, 30, [], []⟩ 5 7) ∧
    ((⟨⟨32, 32⟩, ⟨64, 64⟩, 0, 10, [], []⟩ : AllocState).imageRows ++ [⟨10, 7, 0⟩]
        = (addRowState ⟨⟨32, 32⟩, ⟨64, 64⟩, 0, 10, [], []⟩ ⟨32, 32⟩ 7).imageRows) := by
  refine ⟨C4_addRow_contract.1 _ 5 7 (by decide),
    C4_addRow_contract.2.1 _ 5 7 (by decide) (by decide) (by decide), ?_, ?_⟩
  · have h := C4_addRow_contract.2.2.1 ⟨⟨32, 32⟩, ⟨64, 64⟩, 0, 30, [], []⟩ 5 7
      (by decide) (by decide) (by exact ⟨by decide, by decide, by decide, by decide⟩)
    exact h
  · exact ((C4_addRow_contract.2.2.2 ⟨⟨32, 32⟩, ⟨64, 64⟩, 0, 10, [], []⟩ 5 7 _ 0
      (C4_addRow_contract.1 _ 5 7 (by decide))).1).symm

/-! ### C5: termination of the doubling loops -/

/-- Counterexample to C5: the claim says the estimator's loop terminates for
every configuration, stopping "once slack is satisfied or the configured
maximum is reached on both axes"; but when a maximum is not reachable by
doubling (here 24 from 16), the guard `(atlasSize.x << 1) <= maxsize.x`
never fires, the loop body leaves the state unchanged, and neither exit
condition ever holds: the C++ loop never terminates. -/
theorem C5_counterexample :
    estimateNeededSize cfgNonPow2 = none ∧
    estLoopDiverges cfgNonPow2.maxsize (spaceNeededOf cfgNonPow2.entries)
      cfgNonPow2.atlasSize (spaceFreeOf cfgNonPow2) := by
  constructor
  · decide
  · intro fuel
    induction fuel with
    | zero => decide
    | succ n ih =>
      rw [show (spaceNeededOf cfgNonPow2.entries) = 10000 by decide] at ih ⊢
      rw [show (spaceFreeOf cfgNonPow2) = 256 by decide] at ih ⊢
      rw [estLoopF_step n (by decide) (by decide)]
      rw [show (estStep cfgNonPow2.maxsize (cfgNonPow2.atlasSize, (256 : Int)))
          = (cfgNonPow2.atlasSize, (256 : Int)) by decide]
      exact ih

/-- C5 (amended): the claim holds on non-degenerate configurations.  The
estimator's loop terminates whenever the dimensions are positive and each
maximum is reachable from its axis by repeated doubling (the code never
clamps there, so e.g. growing 16 toward a maximum of 24 stalls forever —
see the counterexample — and a zero dimension never grows at all);
`AddRow`'s loop, whose resize step does clamp, terminates from any positive
in-range dimensions; and once both axes are at their maxima a row request
fails immediately instead of looping. -/
theorem C5_termination :
    (∀ s : AllocState, Reachable s.maxsize s.atlasSize →
      (estimateNeededSize s).isSome) ∧
    (∀ (s : AllocState) (w hh : Int), DimsOk s.maxsize s.atlasSize →
      (addRow s w hh).isSome) ∧
    (∀ (s : AllocState) (w hh : Int), s.maxsize.x ≤ s.atlasSize.x →
      s.maxsize.y ≤ s.atlasSize.y → s.atlasSize.y < s.nextRowPos + hh →
      addRow s w hh = some (s, none)) := by
  refine ⟨fun s hr => ?_, fun s w hh hq => addRow_isSome w hh hq,
    fun s w hh h2 h3 h1 => addRow_fail w hh h1 h2 h3⟩
  unfold estimateNeededSize
  have h := estLoopF_isSome (m := s.maxsize) (spaceNeededOf s.entries)
    (estFuel s.maxsize s.atlasSize) s.atlasSize (spaceFreeOf s) hr
    (by unfold estFuel dimGap; omega)
  match hres : estLoopF s.maxsize (spaceNeededOf s.entries)
      (estFuel s.maxsize s.atlasSize) s.atlasSize (spaceFreeOf s) with
  | none => rw [hres] at h; exact absurd h (by simp)
  | some (a, f) => rfl

/-- Witness for C5 at concrete inputs: a 32×32 surface with 64×64 maxima. -/
theorem C5_termination_witness :
    ((estimateNeededSize ⟨⟨32, 32⟩, ⟨64, 64⟩, 0, 0, [], [⟨"e", ⟨50, 50⟩, ⟨0, 0, 0, 0⟩⟩]⟩).isSome) ∧
    ((addRow ⟨⟨32, 32⟩, ⟨64, 64⟩, 0, 30, [], []⟩ 5 7).isSome) ∧
    (addRow ⟨⟨64, 64⟩, ⟨64, 64⟩, 0, 60, [], []⟩ 5 7
      = some (⟨⟨64, 64⟩, ⟨64, 64⟩, 0, 60, [], []⟩, none)) :=
  ⟨C5_termination.1 _ ⟨by decide, by decide, ⟨1, by decide⟩, ⟨1, by decide⟩⟩,
   C5_termination.2.1 _ 5 7 ⟨by decide, by decide, by decide, by decide⟩,
   C5_termination.2.2 _ 5 7 (by decide) (by decide) (by decide)⟩

/-! ### C6: the Capacity Estimator -/

theorem foldl_add_eq_sum {α : Type} (f : α → Int) :
    ∀ (l : List α) (init : Int),
      l.foldl (fun acc e => acc + f e) init = init + (l.map f).sum
  | [], init => by simp
  | e :: l, init => by
    simp only [List.foldl_cons, List.map_cons, List.sum_cons]
    rw [foldl_add_eq_sum f l]
    ring

/-- Counterexample to C6: the claim says that while `free < needed × 1.2`
and the surface is below the maximum on at least one axis, the estimator
"doubles that axis's dimension clamped to the maximum".  Here the slack is
unsatisfied and both axes are strictly below their maxima, yet one loop
body execution changes neither the dimensions nor `free` — the guard is
`dimension * 2 ≤ maximum`, which never clamps — so no doubling to the
maximum ever happens and the loop never terminates. -/
theorem C6_counterexample :
    slackLt (spaceFreeOf cfg48) (spaceNeededOf cfg48.entries) ∧
    cfg48.atlasSize.x < cfg48.maxsize.x ∧ cfg48.atlasSize.y < cfg48.maxsize.y ∧
    estStep cfg48.maxsize (cfg48.atlasSize, spaceFreeOf cfg48)
      = (cfg48.atlasSize, spaceFreeOf cfg48) ∧
    estimateNeededSize cfg48 = none := by
  have hdiv : estLoopDiverges cfg48.maxsize (spaceNeededOf cfg48.entries)
      cfg48.atlasSize (spaceFreeOf cfg48) := by
    intro fuel
    induction fuel with
    | zero => decide
    | succ n ih =>
      rw [show spaceNeededOf cfg48.entries = 10000 by decide] at ih ⊢
      rw [show spaceFreeOf cfg48 = 1024 by decide] at ih ⊢
      rw [estLoopF_step n (by decide) (by decide)]
      rw [show estStep cfg48.maxsize (cfg48.atlasSize, (1024 : Int))
          = (cfg48.atlasSize, (1024 : Int)) by decide]
      exact ih
  refine ⟨by decide, by decide, by decide, by decide, ?_⟩
  unfold estimateNeededSize
  rw [hdiv _]

/-- C6 (amended): the estimator computes `needed` and `free` exactly by the
spec's formulas; its loop runs while `(float) free < (float) needed * 1.2f`
— evaluated in binary32, conversions and product rounded to nearest
(`slackLt`) — and not both axes are at-or-above their maxima, and each body
execution doubles each axis whose doubled dimension still fits under that
axis's maximum (first width, then height, the height step exposing area
with the updated width), adding the newly exposed area to `free`; an axis
that cannot double without exceeding its maximum is never clamped up to it
(see the counterexample: such a loop can fail to terminate).  A value the
loop does return always has the (rounded, binary32) slack satisfied or both
axes at-or-above their maxima. -/
theorem C6_estimator_contract :
    (∀ s : AllocState, spaceNeededOf s.entries = specNeeded s ∧
      spaceFreeOf s = specFree s) ∧
    (∀ (m : Int2) (needed free : Int) (a : Int2) (fuel : Nat),
      ¬ slackLt free needed ∨ (m.x ≤ a.x ∧ m.y ≤ a.y) →
      estLoopF m needed fuel a free = some (a, free)) ∧
    (∀ (m : Int2) (needed free : Int) (a : Int2) (n : Nat),
      slackLt free needed → ¬ (m.x ≤ a.x ∧ m.y ≤ a.y) →
      estLoopF m needed (n + 1) a free
        = estLoopF m needed n (estStep m (a, free)).1 (estStep m (a, free)).2) ∧
    (∀ (m a : Int2) (free : Int),
      (a.x * 2 ≤ m.x → a.y * 2 ≤ m.y →
        estStep m (a, free)
          = (⟨a.x * 2, a.y * 2⟩, free + a.x * a.y + a.x * 2 * a.y)) ∧
      (a.x * 2 ≤ m.x → ¬ a.y * 2 ≤ m.y →
        estStep m (a, free) = (⟨a.x * 2, a.y⟩, free + a.x * a.y)) ∧
      (¬ a.x * 2 ≤ m.x → a.y * 2 ≤ m.y →
        estStep m (a, free) = (⟨a.x, a.y * 2⟩, free + a.x * a.y)) ∧
      (¬ a.x * 2 ≤ m.x → ¬ a.y * 2 ≤ m.y → estStep m (a, free) = (a, free))) ∧
    (∀ (m : Int2) (needed : Int) (fuel : Nat) (a : Int2) (free : Int)
        (a' : Int2) (free' : Int),
      estLoopF m needed fuel a free = some (a', free') →
      ¬ slackLt free' needed ∨ (m.x ≤ a'.x ∧ m.y ≤ a'.y)) := by
  refine ⟨fun s => ⟨?_, ?_⟩,
    fun m needed free a fuel h => estLoopF_exit fuel h,
    fun m needed free a n h1 h2 => estLoopF_step n h1 h2,
    fun m a free => ⟨fun h1 h2 => ?_, fun h1 h2 => ?_, fun h1 h2 => ?_,
      fun h1 h2 => ?_⟩,
    fun m needed fuel a free a' free' h => estLoopF_exit_shape h⟩
  · unfold spaceNeededOf specNeeded
    rw [foldl_add_eq_sum]
    ring
  · unfold spaceFreeOf specFree
    rw [foldl_add_eq_sum]
  · unfold estStep
    rw [if_pos h1]
    simp only []
    rw [min_eq_right h1, if_pos h2, min_eq_right h2]
  · unfold estStep
    rw [if_pos h1]
    simp only []
    rw [min_eq_right h1, if_neg h2]
  · unfold estStep
    rw [if_neg h1]
    simp only []
    rw [if_pos h2, min_eq_right h2]
  · unfold estStep
    rw [if_neg h1]
    simp only []
    rw [if_neg h2]

/-- Witness for C6 at concrete inputs.  The second exit instance sits
exactly at the rounded threshold: `10 * 1.2f` is exactly `12.0f`, so with
`free = 12` the binary32 guard is already false and the loop exits, even
though the exact rational `12 < 10 × 1.2` holds. -/
theorem C6_estimator_contract_witness :
    (spaceNeededOf cfg48.entries = specNeeded cfg48) ∧
    (estLoopF ⟨64, 64⟩ 10 5 ⟨32, 32⟩ 4096 = some (⟨32, 32⟩, 4096)) ∧
    (estLoopF ⟨64, 64⟩ 10 5 ⟨32, 32⟩ 12 = some (⟨32, 32⟩, 12)) ∧
    (estLoopF ⟨64, 64⟩ 10000 3 ⟨32, 32⟩ 0
      = estLoopF ⟨64, 64⟩ 10000 2
          (estStep ⟨64, 64⟩ (⟨32, 32⟩, 0)).1 (estStep ⟨64, 64⟩ (⟨32, 32⟩, 0)).2) ∧
    (estStep ⟨64, 64⟩ (⟨32, 16⟩, 7) = (⟨64, 32⟩, 7 + 32 * 16 + 64 * 16)) ∧
    (¬ slackLt 8192 10 ∨ ((64 : Int) ≤ 32 ∧ (64 : Int) ≤ 32)) :=
  ⟨(C6_estimator_contract.1 cfg48).1,
   C6_estimator_contract.2.1 _ 10 4096 _ 5 (Or.inl (by decide)),
   C6_estimator_contract.2.1 _ 10 12 _ 5 (Or.inl (by decide)),
   C6_estimator_contract.2.2.1 _ 10000 0 _ 2 (by decide) (by decide),
   (C6_estimator_contract.2.2.2.1 ⟨64, 64⟩ ⟨32, 16⟩ 7).1 (by decide) (by decide),
   C6_estimator_contract.2.2.2.2 ⟨64, 64⟩ 10 4 ⟨32, 32⟩ 8192 ⟨32, 32⟩ 8192
     (by decide)⟩

/-! ### C10: new-row creation ignores the requested width -/

theorem addRowLoopF_true_iff {m : Int2} (nrp hh : Int) :
    ∀ (fuel : Nat) (a : Int2), DimsOk m a → dimGap m a ≤ fuel →
      ((∃ a', addRowLoopF m nrp hh fuel a = some (a', true)) ↔
        (nrp + hh ≤ a.y ∨ nrp + hh ≤ m.y))
  | fuel, a, hq, hfuel => by
    obtain ⟨hx1, hx2, hy1, hy2⟩ := hq
    by_cases h1 : a.y < nrp + hh
    · by_cases h2 : m.x ≤ a.x ∧ m.y ≤ a.y
      · rw [addRowLoopF_fail fuel h1 h2]
        constructor
        · rintro ⟨a', ha'⟩
          simp at ha'
        · intro h
          omega
      · obtain ⟨hq', hdec⟩ := growA_ok ⟨hx1, hx2, hy1, hy2⟩ h2
        match fuel with
        | 0 => omega
        | n + 1 =>
          rw [addRowLoopF_step n h1 h2]
          rw [addRowLoopF_true_iff nrp hh n _ hq' (by omega)]
          have hgy : (growA m a).y = min m.y (a.y * 2) := rfl
          have : (growA m a).y ≤ m.y := by rw [hgy]; omega
          omega
    · rw [addRowLoopF_host fuel (by omega)]
      constructor
      · intro _
        omega
      · intro _
        exact ⟨a, rfl⟩

theorem addRow_success_iff {s : AllocState} (w hh : Int)
    (hq : DimsOk s.maxsize s.atlasSize) :
    (∃ s' i, addRow s w hh = some (s', some i)) ↔
      (s.nextRowPos + hh ≤ s.atlasSize.y ∨ s.nextRowPos + hh ≤ s.maxsize.y) := by
  rw [← addRowLoopF_true_iff s.nextRowPos hh (estFuel s.maxsize s.atlasSize)
    s.atlasSize hq (by unfold estFuel dimGap; omega)]
  unfold addRow
  constructor
  · rintro ⟨s', i, h⟩
    match hres : addRowLoopF s.maxsize s.nextRowPos hh
        (estFuel s.maxsize s.atlasSize) s.atlasSize with
    | none => rw [hres] at h; exact absurd h (by simp)
    | some (a, false) => rw [hres] at h; simp at h
    | some (a, true) => exact ⟨a, rfl⟩
  · rintro ⟨a, ha⟩
    rw [ha]
    exact ⟨_, _, rfl⟩

/-- C10: new-row creation succeeds or fails based only on the requested
height, never the requested width: `AddRow`'s two arguments produce the
same result for any two widths; from sane dimensions a row is obtained
exactly when the requested height fits the current or maximum surface
height, regardless of width; hence `FindRow` never returns the failure
sentinel for such a request, and a concrete oversized entry (padded width
101 against a 32-wide surface at its maximum) is still recorded as placed
with success, its rectangle's right edge (100) beyond the surface width
(32). -/
theorem C10_addRow_ignores_width :
    (∀ (s : AllocState) (w w' hh : Int), addRow s w hh = addRow s w' hh) ∧
    (∀ (s : AllocState) (w hh : Int), DimsOk s.maxsize s.atlasSize →
      ((∃ s' i, addRow s w hh = some (s', some i)) ↔
        (s.nextRowPos + hh ≤ s.atlasSize.y ∨ s.nextRowPos + hh ≤ s.maxsize.y))) ∧
    (∀ (s : AllocState) (gw gh : Int), DimsOk s.maxsize s.atlasSize →
      (s.nextRowPos + gh ≤ s.atlasSize.y ∨ s.nextRowPos + gh ≤ s.maxsize.y) →
      ∃ s' i, findRow s gw gh = some (s', some i)) ∧
    ((allocate ⟨⟨32, 32⟩, ⟨32, 32⟩, 0, 0, [],
        [⟨"a", ⟨100, 10⟩, ⟨0, 0, 0, 0⟩⟩]⟩).map
          (fun r => (r.success, r.state.atlasSize.x, r.outcomes))
        = some (true, 32, [("a", some ⟨0, 0, 100, 10⟩)])) := by
  refine ⟨fun s w w' hh => rfl,
    fun s w hh hq => addRow_success_iff w hh hq,
    fun s gw gh hq hfit => ?_, by decide⟩
  unfold findRow
  match findScan s.atlasSize.x gw gh s.imageRows 0 s.atlasSize.x none none with
  | (bw, bh, some i) => exact ⟨s, i, rfl⟩
  | (bw, bh, none) => exact (addRow_success_iff gw gh hq).mpr hfit

/-- Witness for C10 at concrete inputs. -/
theorem C10_addRow_ignores_width_witness :
    (addRow ⟨⟨32, 32⟩, ⟨64, 64⟩, 0, 30, [], []⟩ 500 7
      = addRow ⟨⟨32, 32⟩, ⟨64, 64⟩, 0, 30, [], []⟩ 3 7) ∧
    (∃ s' i, addRow ⟨⟨32, 32⟩, ⟨64, 64⟩, 0, 30, [], []⟩ 500 7
      = some (s', some i)) ∧
    (∃ s' i, findRow ⟨⟨32, 32⟩, ⟨64, 64⟩, 0, 30, [], []⟩ 500 7
      = some (s', some i)) :=
  ⟨C10_addRow_ignores_width.1 _ 500 3 7,
   (C10_addRow_ignores_width.2.1 _ 500 7
      ⟨by decide, by decide, by decide, by decide⟩).mpr (by decide),
   C10_addRow_ignores_width.2.2.1 _ 500 7
      ⟨by decide, by decide, by decide, by decide⟩ (by decide)⟩

/-! ### C3: the `FindRow` best-fit scan -/

theorem keyLeP_refl (a : Int × Int) : keyLeP a a := by unfold keyLeP; omega

theorem keyLeP_trans {a b c : Int × Int} (h1 : keyLeP a b) (h2 : keyLeP b c) :
    keyLeP a c := by unfold keyLeP at *; omega

theorem keyLeP_of_keyLtP {a b : Int × Int} (h : keyLtP a b) : keyLeP a b := by
  unfold keyLtP at h; unfold keyLeP; omega

theorem keyLeP_of_not_keyLtP {a b : Int × Int} (h : ¬ keyLtP a b) : keyLeP b a := by
  unfold keyLtP at h; unfold keyLeP; omega

/-- The scan's update condition is the strict key comparison. -/
theorem scan_cond_iff (gh h w bw : Int) (bh : Option Int) :
    (ratioLtB gh h bh || (ratioEqB gh h bh && decide (w < bw))) = true ↔
      keyLtP (h, w) (keyOfAcc gh bw bh) := by
  cases bh <;> simp [ratioLtB, ratioEqB, keyLtP, keyOfAcc]

/-- Full characterization of the `FindRow` scan: the final accumulator is
either untouched or holds an eligible row of the scanned suffix; its key is
a lower bound (in the strict lexicographic order on `(height, usedWidth)`)
of the keys of all eligible scanned rows and of the initial key. -/
theorem findScan_spec (ax gw gh : Int) :
    ∀ (rows : List Row) (i : Nat) (bw : Int) (bh : Option Int) (br : Option Nat)
      (bw' : Int) (bh' : Option Int) (br' : Option Nat),
      findScan ax gw gh rows i bw bh br = (bw', bh', br') →
      ((br' = br ∧ bh' = bh ∧ bw' = bw) ∨
        (∃ k r, br' = some (i + k) ∧ rows.get? k = some r ∧ RowElig ax gw gh r ∧
          bh' = some r.height ∧ bw' = r.width)) ∧
      (∀ k r, rows.get? k = some r → RowElig ax gw gh r →
        keyLeP (keyOfAcc gh bw' bh') (r.height, r.width)) ∧
      keyLeP (keyOfAcc gh bw' bh') (keyOfAcc gh bw bh)
  | [], i, bw, bh, br, bw', bh', br', h => by
    obtain ⟨rfl, rfl, rfl⟩ : bw = bw' ∧ bh = bh' ∧ br = br' := by
      simpa [findScan, Prod.ext_iff] using h
    refine ⟨Or.inl ⟨rfl, rfl, rfl⟩, fun k r hk => by simp at hk, keyLeP_refl _⟩
  | r :: rs, i, bw, bh, br, bw', bh', br', h => by
    by_cases hs1 : gw > ax - r.width
    · rw [show findScan ax gw gh (r :: rs) i bw bh br
          = findScan ax gw gh rs (i + 1) bw bh br by
            conv_lhs => unfold findScan
            rw [if_pos hs1]] at h
      obtain ⟨hA, hB, hC⟩ := findScan_spec ax gw gh rs (i + 1) bw bh br bw' bh' br' h
      refine ⟨?_, ?_, hC⟩
      · rcases hA with hA | ⟨k, r0, hk, hget, helig, hbh, hbw⟩
        · exact Or.inl hA
        · exact Or.inr ⟨k + 1, r0, by rw [hk]; congr 1; omega, by simpa using hget,
            helig, hbh, hbw⟩
      · intro k r0 hget helig
        match k with
        | 0 =>
          obtain rfl : r = r0 := by simpa using hget
          exact absurd helig.1 (by omega)
        | k + 1 => exact hB k r0 (by simpa using hget) helig
    · by_cases hs2 : gh > r.height
      · rw [show findScan ax gw gh (r :: rs) i bw bh br
            = findScan ax gw gh rs (i + 1) bw bh br by
              conv_lhs => unfold findScan
              rw [if_neg hs1, if_pos hs2]] at h
        obtain ⟨hA, hB, hC⟩ := findScan_spec ax gw gh rs (i + 1) bw bh br bw' bh' br' h
        refine ⟨?_, ?_, hC⟩
        · rcases hA with hA | ⟨k, r0, hk, hget, helig, hbh, hbw⟩
          · exact Or.inl hA
          · exact Or.inr ⟨k + 1, r0, by rw [hk]; congr 1; omega, by simpa using hget,
              helig, hbh, hbw⟩
        · intro k r0 hget helig
          match k with
          | 0 =>
            obtain rfl : r = r0 := by simpa using hget
            exact absurd helig.2 (by omega)
          | k + 1 => exact hB k r0 (by simpa using hget) helig
      · have helig0 : RowElig ax gw gh r := ⟨by omega, by omega⟩
        by_cases hc : (ratioLtB gh r.height bh
            || (ratioEqB gh r.height bh && decide (r.width < bw))) = true
        · rw [show findScan ax gw gh (r :: rs) i bw bh br
              = findScan ax gw gh rs (i + 1) r.width (some r.height) (some i) by
                conv_lhs => unfold findScan
                rw [if_neg hs1, if_neg hs2, if_pos hc]] at h
          obtain ⟨hA, hB, hC⟩ :=
            findScan_spec ax gw gh rs (i + 1) r.width (some r.height) (some i)
              bw' bh' br' h
          have hkey : keyOfAcc gh r.width (some r.height) = (r.height, r.width) := rfl
          have hlt : keyLtP (r.height, r.width) (keyOfAcc gh bw bh) :=
            (scan_cond_iff gh r.height r.width bw bh).mp hc
          refine ⟨?_, ?_, ?_⟩
          · rcases hA with ⟨h1, h2, h3⟩ | ⟨k, r0, hk, hget, helig, hbh, hbw⟩
            · exact Or.inr ⟨0, r, by rw [h1]; rfl, by simp, helig0,
                by rw [h2], by rw [h3]⟩
            · exact Or.inr ⟨k + 1, r0, by rw [hk]; congr 1; omega,
                by simpa using hget, helig, hbh, hbw⟩
          · intro k r0 hget helig
            match k with
            | 0 =>
              obtain rfl : r = r0 := by simpa using hget
              exact hkey ▸ hC
            | k + 1 => exact hB k r0 (by simpa using hget) helig
          · exact keyLeP_trans (hkey ▸ hC) (keyLeP_of_keyLtP hlt)
        · rw [show findScan ax gw gh (r :: rs) i bw bh br
              = findScan ax gw gh rs (i + 1) bw bh br by
                conv_lhs => unfold findScan
                rw [if_neg hs1, if_neg hs2, if_neg hc]] at h
          obtain ⟨hA, hB, hC⟩ := findScan_spec ax gw gh rs (i + 1) bw bh br bw' bh' br' h
          have hnlt : keyLeP (keyOfAcc gh bw bh) (r.height, r.width) :=
            keyLeP_of_not_keyLtP (fun hlt =>
              hc ((scan_cond_iff gh r.height r.width bw bh).mpr hlt))
          refine ⟨?_, ?_, hC⟩
          · rcases hA with hA | ⟨k, r0, hk, hget, helig, hbh, hbw⟩
            · exact Or.inl hA
            · exact Or.inr ⟨k + 1, r0, by rw [hk]; congr 1; omega,
                by simpa using hget, helig, hbh, hbw⟩
          · intro k r0 hget helig
            match k with
            | 0 =>
              obtain rfl : r = r0 := by simpa using hget
              exact keyLeP_trans hC hnlt
            | k + 1 => exact hB k r0 (by simpa using hget) helig

/-- Counterexample to C3: the claim says `FindRow` considers exactly the
eligible rows and returns the eligible row of minimal ratio, delegating to
new-row creation only when no row qualifies.  Here row 0 is eligible for a
1×1 request (remaining width 30000 ≥ 1, height 20000 ≥ 1), yet its ratio
20000 is not below the initial sentinel `bestRatio = 10000.0f`, so the
scan selects nothing and `FindRow` instead creates and returns a brand-new
row (index 1, row count now 2). -/
theorem C3_counterexample :
    RowElig exTall.atlasSize.x 1 1 ⟨0, 20000, 0⟩ ∧
    exTall.imageRows = [⟨0, 20000, 0⟩] ∧
    (findRow exTall 1 1).map (fun p => (p.2, p.1.imageRows.length))
      = some (some 1, 2) := by
  refine ⟨by decide, by decide, by decide⟩

/-- C3 (amended): provided every eligible row's height is below
10000 × requestedHeight (rows at or above that ratio are shut out by the
initial `bestRatio = 10000.0f` sentinel — see the counterexample),
`FindRow` considers exactly the rows with sufficient remaining width and
height: when some eligible row exists it returns (without touching the
state) an eligible row minimizing the ratio `row.height / requestedHeight`,
breaking exact ratio ties by the smaller used-width cursor (with the fixed
positive denominator, ratio order is height order); when no row is
eligible it delegates to `AddRow`. -/
theorem C3_findRow_contract (s : AllocState) (gw gh : Int) (hgh : 1 ≤ gh)
    (hb : ∀ r ∈ s.imageRows, RowElig s.atlasSize.x gw gh r →
      r.height < 10000 * gh) :
    ((∃ r ∈ s.imageRows, RowElig s.atlasSize.x gw gh r) →
      ∃ idx r, findRow s gw gh = some (s, some idx) ∧
        s.imageRows.get? idx = some r ∧ RowElig s.atlasSize.x gw gh r ∧
        ∀ j r', s.imageRows.get? j = some r' → RowElig s.atlasSize.x gw gh r' →
          r.height < r'.height ∨ (r.height = r'.height ∧ r.width ≤ r'.width)) ∧
    ((∀ r ∈ s.imageRows, ¬ RowElig s.atlasSize.x gw gh r) →
      findRow s gw gh = addRow s gw gh) := by
  obtain ⟨bw', bh', br', hres⟩ :
      ∃ bw' bh' br', findScan s.atlasSize.x gw gh s.imageRows 0
        s.atlasSize.x none none = (bw', bh', br') := ⟨_, _, _, rfl⟩
  obtain ⟨hA, hB, hC⟩ := findScan_spec s.atlasSize.x gw gh s.imageRows 0
    s.atlasSize.x none none bw' bh' br' hres
  constructor
  · rintro ⟨r0, hr0mem, hr0e⟩
    rcases hA with ⟨hbr, hbh, hbw⟩ | ⟨k, r, hk, hget, helig, hbh, hbw⟩
    · exfalso
      obtain ⟨k0, hk0⟩ := List.get?_of_mem hr0mem
      have hle := hB k0 r0 hk0 hr0e
      have hlt := hb r0 hr0mem hr0e
      rw [hbh] at hle
      unfold keyOfAcc keyLeP at hle
      simp at hle
      omega
    · have hk' : br' = some k := by rw [hk]; congr 1; omega
      have hfr : findRow s gw gh = some (s, some k) := by
        unfold findRow
        rw [hres, hk']
      refine ⟨k, r, hfr, hget, helig, fun j r' hj hj' => ?_⟩
      have hle := hB j r' hj hj'
      rw [hbh, hbw] at hle
      unfold keyOfAcc keyLeP at hle
      simpa using hle
  · intro hnone
    rcases hA with ⟨hbr, hbh, hbw⟩ | ⟨k, r, hk, hget, helig, hbh, hbw⟩
    · unfold findRow
      rw [hres, hbr]
    · exact absurd helig (hnone r (List.get?_mem hget))

/-- Witness for C3 at concrete inputs: one eligible 12-high row for a 5×10
request is selected; a store whose rows are all too narrow delegates. -/
theorem C3_findRow_contract_witness :
    (∃ idx r,
      findRow ⟨⟨64, 64⟩, ⟨64, 64⟩, 0, 12, [⟨0, 12, 0⟩], []⟩ 5 10
        = some (⟨⟨64, 64⟩, ⟨64, 64⟩, 0, 12, [⟨0, 12, 0⟩], []⟩, some idx) ∧
      (⟨⟨64, 64⟩, ⟨64, 64⟩, 0, 12, [⟨0, 12, 0⟩], []⟩ : AllocState).imageRows.get? idx
        = some r ∧ RowElig 64 5 10 r ∧
      ∀ j r', (⟨⟨64, 64⟩, ⟨64, 64⟩, 0, 12, [⟨0, 12, 0⟩], []⟩ :
          AllocState).imageRows.get? j = some r' → RowElig 64 5 10 r' →
        r.height < r'.height ∨ (r.height = r'.height ∧ r.width ≤ r'.width)) ∧
    (findRow ⟨⟨64, 64⟩, ⟨64, 64⟩, 0, 12, [⟨0, 12, 60⟩], []⟩ 5 10
      = addRow ⟨⟨64, 64⟩, ⟨64, 64⟩, 0, 12, [⟨0, 12, 60⟩], []⟩ 5 10) :=
  ⟨(C3_findRow_contract _ 5 10 (by decide) (by decide)).1
      ⟨⟨0, 12, 0⟩, by decide, by decide⟩,
   (C3_findRow_contract _ 5 10 (by decide) (by decide)).2 (by decide)⟩

/-! ### C7: the deterministic processing order -/

theorem compareTex_true_iff (a b : SAtlasEntry) :
    compareTex a b = true ↔ TexGt a b := by
  unfold compareTex TexGt
  split_ifs with h1 h2 h3 h4 h5
  · exact ⟨fun _ => Or.inl h1, fun _ => rfl⟩
  · refine ⟨fun h => absurd h (by simp), fun hp => ?_⟩
    exfalso
    rcases hp with h | ⟨h, -⟩ <;> omega
  · exact ⟨fun _ => Or.inr ⟨by omega, Or.inl h3⟩, fun _ => rfl⟩
  · refine ⟨fun h => absurd h (by simp), fun hp => ?_⟩
    exfalso
    rcases hp with h | ⟨-, h | ⟨h, -⟩⟩ <;> omega
  · exact ⟨fun _ => Or.inr ⟨by omega, Or.inr ⟨by omega, h5⟩⟩, fun _ => rfl⟩
  · refine ⟨fun h => absurd h (by simp), fun hp => ?_⟩
    exfalso
    rcases hp with h | ⟨-, h | ⟨-, h⟩⟩
    · omega
    · omega
    · exact h5 h

theorem compareTex_false_iff (a b : SAtlasEntry) :
    compareTex a b = false ↔ ¬ TexGt a b := by
  rw [← compareTex_true_iff]
  cases h : compareTex a b <;> simp [h]

theorem not_TexGt_iff (a b : SAtlasEntry) : ¬ TexGt a b ↔ TexLe a b := by
  unfold TexGt TexLe
  constructor
  · intro h
    push_neg at h
    obtain ⟨h1, h2⟩ := h
    rcases lt_trichotomy a.size.y b.size.y with hy | hy | hy
    · exact Or.inl hy
    · obtain ⟨h3, h4⟩ := h2 hy
      refine Or.inr ⟨hy, ?_⟩
      rcases lt_trichotomy a.size.x b.size.x with hx | hx | hx
      · exact Or.inl hx
      · exact Or.inr ⟨hx, le_of_not_lt (h4 hx)⟩
      · exact absurd hx (by omega)
    · exact absurd hy (by omega)
  · intro h
    rcases h with h | ⟨hy, h⟩
    · rintro (h' | ⟨h', -⟩) <;> omega
    · rcases h with h | ⟨hx, hn⟩
      · rintro (h' | ⟨-, h' | ⟨h', -⟩⟩) <;> omega
      · rintro (h' | ⟨-, h' | ⟨-, h'⟩⟩)
        · omega
        · omega
        · exact absurd h' (not_lt.mpr hn)

theorem TexLe_trans {a b c : SAtlasEntry} (h1 : TexLe a b) (h2 : TexLe b c) :
    TexLe a c := by
  unfold TexLe at *
  rcases h1 with h1 | ⟨hy1, h1⟩ <;> rcases h2 with h2 | ⟨hy2, h2⟩
  · exact Or.inl (by omega)
  · exact Or.inl (by omega)
  · exact Or.inl (by omega)
  · refine Or.inr ⟨by omega, ?_⟩
    rcases h1 with h1 | ⟨hx1, hn1⟩ <;> rcases h2 with h2 | ⟨hx2, hn2⟩
    · exact Or.inl (by omega)
    · exact Or.inl (by omega)
    · exact Or.inl (by omega)
    · exact Or.inr ⟨by omega, le_trans hn1 hn2⟩

theorem TexGt_of_TexLe_ne {a b : SAtlasEntry} (h : TexLe a b)
    (hne : a.name ≠ b.name) : TexGt b a := by
  unfold TexLe at h
  unfold TexGt
  rcases h with h | ⟨hy, h | ⟨hx, hn⟩⟩
  · exact Or.inl h
  · exact Or.inr ⟨by omega, Or.inl h⟩
  · exact Or.inr ⟨by omega, Or.inr ⟨by omega, lt_of_le_of_ne hn hne⟩⟩

theorem TexGt_asym {a b : SAtlasEntry} (h : TexGt a b) : ¬ TexGt b a := by
  unfold TexGt at *
  rcases h with h | ⟨hy, h | ⟨hx, hn⟩⟩
  · rintro (h' | ⟨h', -⟩) <;> omega
  · rintro (h' | ⟨-, h' | ⟨h', -⟩⟩) <;> omega
  · rintro (h' | ⟨-, h' | ⟨-, h'⟩⟩)
    · omega
    · omega
    · exact (lt_asymm hn) h'

theorem compareTex_asymB {a b : SAtlasEntry} (h : compareTex a b = true) :
    compareTex b a = false :=
  (compareTex_false_iff b a).mpr (TexGt_asym ((compareTex_true_iff a b).mp h))

theorem compareTex_negtransB {a b c : SAtlasEntry}
    (h1 : compareTex b a = false) (h2 : compareTex c b = false) :
    compareTex c a = false :=
  (compareTex_false_iff c a).mpr ((not_TexGt_iff c a).mpr
    (TexLe_trans ((not_TexGt_iff c b).mp ((compareTex_false_iff c b).mp h2))
      ((not_TexGt_iff b a).mp ((compareTex_false_iff b a).mp h1))))

theorem insertByCmp_perm (cmp : SAtlasEntry → SAtlasEntry → Bool)
    (x : SAtlasEntry) : ∀ l, List.Perm (insertByCmp cmp x l) (x :: l)
  | [] => List.Perm.refl _
  | y :: l => by
    unfold insertByCmp
    split_ifs with h
    · exact ((insertByCmp_perm cmp x l).cons y).trans (List.Perm.swap x y l)
    · exact List.Perm.refl _

theorem stableSortByCmp_perm (cmp : SAtlasEntry → SAtlasEntry → Bool) :
    ∀ l, List.Perm (stableSortByCmp cmp l) l
  | [] => List.Perm.refl _
  | x :: l =>
    (insertByCmp_perm cmp x _).trans ((stableSortByCmp_perm cmp l).cons x)

theorem insertByCmp_sorted {cmp : SAtlasEntry → SAtlasEntry → Bool}
    (hasym : ∀ a b, cmp a b = true → cmp b a = false)
    (hntrans : ∀ a b c, cmp b a = false → cmp c b = false → cmp c a = false)
    (x : SAtlasEntry) :
    ∀ {l}, l.Pairwise (fun a b => cmp b a = false) →
      (insertByCmp cmp x l).Pairwise (fun a b => cmp b a = false)
  | [], _ => by simp [insertByCmp]
  | y :: l, hp => by
    obtain ⟨hy, hl⟩ := List.pairwise_cons.mp hp
    unfold insertByCmp
    split_ifs with h
    · refine List.pairwise_cons.mpr ⟨?_, insertByCmp_sorted hasym hntrans x hl⟩
      intro b hb
      rcases List.mem_cons.mp ((insertByCmp_perm cmp x l).mem_iff.mp hb) with
        rfl | hbl
      · exact hasym y b h
      · exact hy b hbl
    · have h' : cmp y x = false := by
        revert h
        cases cmp y x <;> simp
      refine List.pairwise_cons.mpr ⟨?_, hp⟩
      intro b hb
      rcases List.mem_cons.mp hb with rfl | hbl
      · exact h'
      · exact hntrans x y b h' (hy b hbl)

theorem stableSortByCmp_sorted {cmp : SAtlasEntry → SAtlasEntry → Bool}
    (hasym : ∀ a b, cmp a b = true → cmp b a = false)
    (hntrans : ∀ a b c, cmp b a = false → cmp c b = false → cmp c a = false) :
    ∀ l, (stableSortByCmp cmp l).Pairwise (fun a b => cmp b a = false)
  | [] => List.Pairwise.nil
  | x :: l =>
    insertByCmp_sorted hasym hntrans x (stableSortByCmp_sorted hasym hntrans l)

theorem setInsert_perm_of_not_mem {n : String} :
    ∀ {ns : List String}, n ∉ ns → List.Perm (setInsert n ns) (n :: ns)
  | [], _ => List.Perm.refl _
  | m :: ms, h => by
    unfold setInsert
    split_ifs with h1 h2
    · exact List.Perm.refl _
    · have hnm : n ∉ ms := fun hm => h (List.mem_cons_of_mem m hm)
      exact ((setInsert_perm_of_not_mem hnm).cons m).trans (List.Perm.swap n m ms)
    · exact absurd (le_antisymm (le_of_not_lt h2) (le_of_not_lt h1) ▸
        List.mem_cons_self m ms) h

theorem foldl_setInsert_perm :
    ∀ (l : List SAtlasEntry) (acc : List String),
      (acc ++ l.map (fun e => e.name)).Nodup →
      List.Perm (l.foldl (fun a e => setInsert e.name a) acc)
        (acc ++ l.map (fun e => e.name))
  | [], acc, _ => by simp
  | e :: l, acc, hnd => by
    simp only [List.map_cons] at hnd
    simp only [List.foldl_cons, List.map_cons]
    have hnd2 : (e.name :: (acc ++ l.map (fun e => e.name))).Nodup :=
      (@List.perm_middle _ e.name acc (l.map (fun e => e.name))).nodup_iff.mp hnd
    have hmem : e.name ∉ acc :=
      fun hc => (List.nodup_cons.mp hnd2).1 (List.mem_append_left _ hc)
    have hins := @setInsert_perm_of_not_mem e.name acc hmem
    have hnd' : (setInsert e.name acc ++ l.map (fun e => e.name)).Nodup :=
      ((hins.append_right _).nodup_iff).mpr (by simpa using hnd2)
    have ih := foldl_setInsert_perm l (setInsert e.name acc) hnd'
    refine ih.trans ((hins.append_right _).trans ?_)
    exact List.perm_middle.symm

theorem namesSorted_perm (l : List SAtlasEntry)
    (hnd : (l.map (fun e => e.name)).Nodup) :
    List.Perm (namesSorted l) (l.map (fun e => e.name)) :=
  foldl_setInsert_perm l [] (by simpa using hnd)

theorem filterMap_lookup_self :
    ∀ (l : List SAtlasEntry), (l.map (fun e => e.name)).Nodup →
      (l.map (fun e => e.name)).filterMap (fun n => lookupEntry n l) = l
  | [], _ => rfl
  | e :: l, hnd => by
    simp only [List.map_cons] at hnd ⊢
    obtain ⟨hne, hnd'⟩ := List.nodup_cons.mp hnd
    rw [List.filterMap_cons]
    have h1 : lookupEntry e.name (e :: l) = some e := by
      unfold lookupEntry
      simp [List.find?_cons]
    rw [h1]
    have h2 : (l.map fun e => e.name).filterMap (fun n => lookupEntry n (e :: l))
        = (l.map fun e => e.name).filterMap (fun n => lookupEntry n l) := by
      apply List.filterMap_congr
      intro n hn
      have hne2 : (e.name == n) = false := by
        have : e.name ≠ n := fun hc => hne (hc ▸ hn)
        simpa using this
      unfold lookupEntry
      rw [List.find?_cons, hne2]
    rw [h2, filterMap_lookup_self l hnd']

theorem processingOrder_perm (l : List SAtlasEntry)
    (hnd : (l.map (fun e => e.name)).Nodup) :
    List.Perm (processingOrder l) l := by
  unfold processingOrder
  refine (stableSortByCmp_perm _ _).trans ?_
  have h1 := (namesSorted_perm l hnd).filterMap (fun n => lookupEntry n l)
  rw [filterMap_lookup_self l hnd] at h1
  exact h1

/-- C7: with distinct entry names (the registry is keyed by name), the
processing order used by `Allocate` is a permutation of the registered
entries that is strictly descending in the composite key: height
descending, then width descending, then name descending — `CompareTex` is
exactly that strict total order, and adjacent order elements are related by
it, so the order is the unique such listing. -/
theorem C7_processing_order (l : List SAtlasEntry)
    (hnd : (l.map (fun e => e.name)).Nodup) :
    List.Perm (processingOrder l) l ∧
    (processingOrder l).Pairwise TexGt ∧
    (∀ a b : SAtlasEntry, compareTex a b = true ↔ TexGt a b) := by
  have hperm := processingOrder_perm l hnd
  refine ⟨hperm, ?_, compareTex_true_iff⟩
  have hsorted : (processingOrder l).Pairwise
      (fun a b => compareTex b a = false) := by
    unfold processingOrder
    exact @stableSortByCmp_sorted compareTex
      (fun a b h => compareTex_asymB h)
      (fun a b c h1 h2 => compareTex_negtransB h1 h2) _
  have hnd2 : ((processingOrder l).map (fun e => e.name)).Nodup :=
    ((hperm.map (fun e => e.name)).nodup_iff).mpr hnd
  have hnames : (processingOrder l).Pairwise (fun a b => a.name ≠ b.name) :=
    List.pairwise_map.mp hnd2
  exact (hsorted.and hnames).imp (fun {a b} h =>
    TexGt_of_TexLe_ne ((not_TexGt_iff b a).mp ((compareTex_false_iff b a).mp h.1))
      (Ne.symm h.2))

/-- Witness for C7 at a concrete two-entry registry. -/
theorem C7_processing_order_witness :
    List.Perm (processingOrder [⟨"a", ⟨3, 4⟩, ⟨0, 0, 0, 0⟩⟩,
        ⟨"b", ⟨5, 6⟩, ⟨0, 0, 0, 0⟩⟩])
      [⟨"a", ⟨3, 4⟩, ⟨0, 0, 0, 0⟩⟩, ⟨"b", ⟨5, 6⟩, ⟨0, 0, 0, 0⟩⟩] ∧
    (processingOrder [⟨"a", ⟨3, 4⟩, ⟨0, 0, 0, 0⟩⟩,
        ⟨"b", ⟨5, 6⟩, ⟨0, 0, 0, 0⟩⟩]).Pairwise TexGt ∧
    (∀ a b : SAtlasEntry, compareTex a b = true ↔ TexGt a b) :=
  C7_processing_order _ (by decide)

/-! ### C9: height tightness -/

/-- Updating a row's used-width cursor in place never changes the height
multiset; in particular the height sum is unchanged. -/
theorem heightsSum_set_width :
    ∀ (l : List Row) (i : Nat) (w : Int),
      ((l.set i { l.getD i ⟨0, 0, 0⟩ with width := w }).map
        (fun r => r.height)).sum = (l.map (fun r => r.height)).sum
  | [], i, w => rfl
  | r :: t, 0, w => by simp
  | r :: t, i + 1, w => by
    simp only [List.set_cons_succ, List.map_cons, List.sum_cons, List.getD_cons_succ]
    rw [heightsSum_set_width t i w]

/-- Unfolding equation for the placement loop on a non-empty entry list. -/
theorem placeAll_cons (padding : Int) (e : SAtlasEntry) (es : List SAtlasEntry)
    (s : AllocState) (ok : Bool) (outs : List (String × Option TexRect)) :
    placeAll padding (e :: es) s ok outs
      = match findRow s (e.size.x + padding) (e.size.y + padding) with
        | none => none
        | some (s1, none) =>
          placeAll padding es s1 false (outs ++ [(e.name, none)])
        | some (s1, some i) =>
          placeAll padding es
            { s1 with
              entries := setEntryRect e.name
                ⟨(s1.imageRows.getD i ⟨0, 0, 0⟩).width,
                  (s1.imageRows.getD i ⟨0, 0, 0⟩).position,
                  (s1.imageRows.getD i ⟨0, 0, 0⟩).width + e.size.x,
                  (s1.imageRows.getD i ⟨0, 0, 0⟩).position + e.size.y⟩ s1.entries,
              imageRows := s1.imageRows.set i
                { s1.imageRows.getD i ⟨0, 0, 0⟩ with
                  width := (s1.imageRows.getD i ⟨0, 0, 0⟩).width
                    + (e.size.x + padding) } }
            ok (outs ++ [(e.name,
              some ⟨(s1.imageRows.getD i ⟨0, 0, 0⟩).width,
                (s1.imageRows.getD i ⟨0, 0, 0⟩).position,
                (s1.imageRows.getD i ⟨0, 0, 0⟩).width + e.size.x,
                (s1.imageRows.getD i ⟨0, 0, 0⟩).position + e.size.y⟩)]) := rfl

/-- Unfolding equation for a whole `Allocate` pass. -/
theorem allocate_eq (s : AllocState) :
    allocate s
      = match estimateNeededSize
          { s with atlasSize := ⟨s.atlasSize.x, bitCeilI s.atlasSize.y⟩ } with
        | none => none
        | some s2 =>
          match placeAll (paddingOf s2) (processingOrder s2.entries) s2 true [] with
          | none => none
          | some (s3, ok, outs) =>
            some ⟨{ s3 with atlasSize := ⟨s3.atlasSize.x, s3.nextRowPos⟩ },
              ok, outs⟩ := rfl

theorem addRow_nrpInv {s : AllocState} {w hh : Int} {s' : AllocState}
    {io : Option Nat} (h : addRow s w hh = some (s', io)) (hinv : nrpInv s) :
    nrpInv s' := by
  unfold addRow at h
  match hres : addRowLoopF s.maxsize s.nextRowPos hh
      (estFuel s.maxsize s.atlasSize) s.atlasSize with
  | none => rw [hres] at h; exact absurd h (by simp)
  | some (a, false) =>
    rw [hres] at h
    simp only [Option.some.injEq, Prod.mk.injEq] at h
    obtain ⟨rfl, -⟩ := h
    exact hinv
  | some (a, true) =>
    rw [hres] at h
    simp only [Option.some.injEq, Prod.mk.injEq] at h
    obtain ⟨rfl, -⟩ := h
    unfold nrpInv at *
    simp [hinv]

theorem findRow_nrpInv {s : AllocState} {gw gh : Int} {s' : AllocState}
    {io : Option Nat} (h : findRow s gw gh = some (s', io)) (hinv : nrpInv s) :
    nrpInv s' := by
  unfold findRow at h
  match hres : findScan s.atlasSize.x gw gh s.imageRows 0 s.atlasSize.x none none with
  | (bw, bh, some i) =>
    rw [hres] at h
    simp only [Option.some.injEq, Prod.mk.injEq] at h
    obtain ⟨rfl, -⟩ := h
    exact hinv
  | (bw, bh, none) =>
    rw [hres] at h
    exact addRow_nrpInv h hinv

theorem placeAll_nrpInv {padding : Int} :
    ∀ {es : List SAtlasEntry} {s : AllocState} {ok : Bool}
      {outs : List (String × Option TexRect)} {s' : AllocState} {ok' : Bool}
      {outs' : List (String × Option TexRect)},
      placeAll padding es s ok outs = some (s', ok', outs') → nrpInv s → nrpInv s'
  | [], s, ok, outs, s', ok', outs', h, hinv => by
    simp only [placeAll, Option.some.injEq, Prod.mk.injEq] at h
    obtain ⟨rfl, -⟩ := h
    exact hinv
  | e :: es, s, ok, outs, s', ok', outs', h, hinv => by
    rw [placeAll_cons] at h
    match hres : findRow s (e.size.x + padding) (e.size.y + padding) with
    | none => rw [hres] at h; exact absurd h (by simp)
    | some (s1, none) =>
      rw [hres] at h
      exact placeAll_nrpInv h (findRow_nrpInv hres hinv)
    | some (s1, some i) =>
      rw [hres] at h
      refine placeAll_nrpInv h ?_
      have h1 := findRow_nrpInv hres hinv
      unfold nrpInv at h1 ⊢
      exact h1.trans (heightsSum_set_width s1.imageRows i _).symm

/-- The estimator only rewrites `atlasSize`; all other state components are
untouched. -/
theorem estimateNeededSize_shape {s s2 : AllocState}
    (h : estimateNeededSize s = some s2) :
    ∃ a, s2 = { s with atlasSize := a } := by
  unfold estimateNeededSize at h
  match hres : estLoopF s.maxsize (spaceNeededOf s.entries)
      (estFuel s.maxsize s.atlasSize) s.atlasSize (spaceFreeOf s) with
  | none => rw [hres] at h; exact absurd h (by simp)
  | some (a, f) =>
    rw [hres] at h
    simp only [Option.some.injEq] at h
    exact ⟨a, h.symm⟩

/-- C9: after every `Allocate` call the surface height equals
`nextRowPos`, and the invariant "`nextRowPos` = sum of the heights of all
rows created so far" is preserved by every operation — `AddRow`, `FindRow`
and a whole `Allocate` pass (it holds at every point, starting from the
fresh allocator with no rows and `nextRowPos = 0`, where it is trivial). -/
theorem C9_height_tightness :
    (∀ (s : AllocState) (r : AllocResult), allocate s = some r →
      r.state.atlasSize.y = r.state.nextRowPos) ∧
    (∀ (s : AllocState) (r : AllocResult), allocate s = some r →
      nrpInv s → nrpInv r.state) ∧
    (∀ (s : AllocState) (w hh : Int) (s' : AllocState) (io : Option Nat),
      addRow s w hh = some (s', io) → nrpInv s → nrpInv s') ∧
    (∀ (s : AllocState) (gw gh : Int) (s' : AllocState) (io : Option Nat),
      findRow s gw gh = some (s', io) → nrpInv s → nrpInv s') := by
  have hmain : ∀ (s : AllocState) (r : AllocResult), allocate s = some r →
      r.state.atlasSize.y = r.state.nextRowPos ∧ (nrpInv s → nrpInv r.state) := by
    intro s r h
    rw [allocate_eq] at h
    split at h
    · exact absurd h (by simp)
    rename_i s2 hest
    split at h
    · exact absurd h (by simp)
    rename_i s3 ok outs hpl
    · simp only [Option.some.injEq] at h
      subst h
      refine ⟨rfl, fun hinv => ?_⟩
      obtain ⟨a, rfl⟩ := estimateNeededSize_shape hest
      have hinv2 : nrpInv { { s with atlasSize :=
          ⟨s.atlasSize.x, bitCeilI s.atlasSize.y⟩ } with atlasSize := a } := by
        unfold nrpInv at hinv ⊢
        simpa using hinv
      have hinv3 := placeAll_nrpInv hpl hinv2
      unfold nrpInv at hinv3 ⊢
      simpa using hinv3
  exact ⟨fun s r h => (hmain s r h).1, fun s r h => (hmain s r h).2,
    fun s w hh s' io h hi => addRow_nrpInv h hi,
    fun s gw gh s' io h hi => findRow_nrpInv h hi⟩

/-- Witness for C9 at a concrete one-entry pass. -/
theorem C9_height_tightness_witness :
    ((allocate ⟨⟨32, 32⟩, ⟨64, 64⟩, 0, 0, [], [⟨"e", ⟨10, 10⟩, ⟨0, 0, 0, 0⟩⟩]⟩).map
      (fun r => (r.state.atlasSize.y, r.state.nextRowPos,
        (r.state.imageRows.map (fun r => r.height)).sum))).all
      (fun t => t.1 = t.2.1 ∧ t.2.1 = t.2.2) := by
  match hres : allocate ⟨⟨32, 32⟩, ⟨64, 64⟩, 0, 0, [],
      [⟨"e", ⟨10, 10⟩, ⟨0, 0, 0, 0⟩⟩]⟩ with
  | none => rfl
  | some r =>
    have h1 := (C9_height_tightness.1 _ r hres)
    have h2 := (C9_height_tightness.2.1 _ r hres (by decide))
    unfold nrpInv at h2
    simp [h1, h2]

/-! ### C2: success flag and per-entry outcomes -/

theorem addRow_entries {s : AllocState} {w hh : Int} {s' : AllocState}
    {io : Option Nat} (h : addRow s w hh = some (s', io)) :
    s'.entries = s.entries := by
  unfold addRow at h
  match hres : addRowLoopF s.maxsize s.nextRowPos hh
      (estFuel s.maxsize s.atlasSize) s.atlasSize with
  | none => rw [hres] at h; exact absurd h (by simp)
  | some (a, false) =>
    rw [hres] at h
    simp only [Option.some.injEq, Prod.mk.injEq] at h
    rw [← h.1]
  | some (a, true) =>
    rw [hres] at h
    simp only [Option.some.injEq, Prod.mk.injEq] at h
    rw [← h.1]

theorem findRow_entries {s : AllocState} {gw gh : Int} {s' : AllocState}
    {io : Option Nat} (h : findRow s gw gh = some (s', io)) :
    s'.entries = s.entries := by
  unfold findRow at h
  match hres : findScan s.atlasSize.x gw gh s.imageRows 0 s.atlasSize.x none none with
  | (bw, bh, some i) =>
    rw [hres] at h
    simp only [Option.some.injEq, Prod.mk.injEq] at h
    rw [← h.1]
  | (bw, bh, none) =>
    rw [hres] at h
    exact addRow_entries h

theorem lookup_setEntryRect (n m : String) (rect : TexRect) :
    ∀ l : List SAtlasEntry,
      lookupEntry n (setEntryRect m rect l)
        = if n = m then
            (lookupEntry n l).map (fun e0 => { e0 with texCoords := rect })
          else lookupEntry n l
  | [] => by
    by_cases h : n = m <;> simp [lookupEntry, setEntryRect, h]
  | e :: l => by
    have ih := lookup_setEntryRect n m rect l
    unfold lookupEntry setEntryRect at ih ⊢
    simp only [List.map_cons]
    by_cases h2 : e.name = n
    · by_cases h3 : n = m
      · rw [if_pos h3] at ih ⊢
        rw [if_pos (h2.trans h3)]
        rw [List.find?_cons_of_pos (p := fun e : SAtlasEntry => e.name == n) _
            (show (({ e with texCoords := rect } : SAtlasEntry).name == n) = true by
              simpa using h2),
          List.find?_cons_of_pos (p := fun e : SAtlasEntry => e.name == n) _
            (show (e.name == n) = true by simpa using h2)]
        rfl
      · have h1 : ¬ (e.name = m) := fun hc => h3 (h2.symm.trans hc)
        rw [if_neg h3] at ih ⊢
        rw [if_neg h1]
        rw [List.find?_cons_of_pos (p := fun e : SAtlasEntry => e.name == n) _
            (show (e.name == n) = true by simpa using h2),
          List.find?_cons_of_pos (p := fun e : SAtlasEntry => e.name == n) _
            (show (e.name == n) = true by simpa using h2)]
    · by_cases h1 : e.name = m
      · rw [if_pos h1]
        rw [List.find?_cons_of_neg (p := fun e : SAtlasEntry => e.name == n) _
            (show ¬ (({ e with texCoords := rect } : SAtlasEntry).name == n) = true by
              simpa using h2)]
        by_cases h3 : n = m
        · rw [if_pos h3] at ih ⊢
          rw [List.find?_cons_of_neg (p := fun e : SAtlasEntry => e.name == n) _
            (show ¬ (e.name == n) = true by simpa using h2)]
          exact ih
        · rw [if_neg h3] at ih ⊢
          rw [List.find?_cons_of_neg (p := fun e : SAtlasEntry => e.name == n) _
            (show ¬ (e.name == n) = true by simpa using h2)]
          exact ih
      · rw [if_neg h1]
        rw [List.find?_cons_of_neg (p := fun e : SAtlasEntry => e.name == n) _
          (show ¬ (e.name == n) = true by simpa using h2)]
        by_cases h3 : n = m
        · rw [if_pos h3] at ih ⊢
          rw [List.find?_cons_of_neg (p := fun e : SAtlasEntry => e.name == n) _
            (show ¬ (e.name == n) = true by simpa using h2)]
          exact ih
        · rw [if_neg h3] at ih ⊢
          rw [List.find?_cons_of_neg (p := fun e : SAtlasEntry => e.name == n) _
            (show ¬ (e.name == n) = true by simpa using h2)]
          exact ih

/-- The placement loop, characterized: the outcomes grow by exactly one
record per processed entry (in processing order); the success flag is the
conjunction of the incoming flag with per-entry success; entries whose name
is not processed keep their registry record; a successfully placed name's
record gets exactly the recorded rectangle; a failed name's record is left
unmodified. -/
theorem placeAll_run {padding : Int} :
    ∀ {es : List SAtlasEntry} {s : AllocState} {ok : Bool}
      {outs : List (String × Option TexRect)} {s' : AllocState} {ok' : Bool}
      {outs' : List (String × Option TexRect)},
      placeAll padding es s ok outs = some (s', ok', outs') →
      (es.map (fun e => e.name)).Nodup →
      ∃ newPart : List (String × Option TexRect),
        outs' = outs ++ newPart ∧
        newPart.map (fun o => o.1) = es.map (fun e => e.name) ∧
        ok' = (ok && newPart.all (fun o => o.2.isSome)) ∧
        (∀ n : String, n ∉ es.map (fun e => e.name) →
          lookupEntry n s'.entries = lookupEntry n s.entries) ∧
        (∀ (n : String) (rect : TexRect), (n, some rect) ∈ newPart →
          lookupEntry n s'.entries
            = (lookupEntry n s.entries).map
                (fun e0 => { e0 with texCoords := rect })) ∧
        (∀ n : String, (n, none) ∈ newPart →
          lookupEntry n s'.entries = lookupEntry n s.entries)
  | [], s, ok, outs, s', ok', outs', h, _ => by
    simp only [placeAll, Option.some.injEq, Prod.mk.injEq] at h
    obtain ⟨rfl, rfl, rfl⟩ := h
    exact ⟨[], by simp, by simp, by simp, fun n _ => rfl,
      fun n rect hmem => by simp at hmem, fun n hmem => by simp at hmem⟩
  | e :: es, s, ok, outs, s', ok', outs', h, hnd => by
    simp only [List.map_cons, List.nodup_cons] at hnd
    obtain ⟨hout, hnd'⟩ := hnd
    rw [placeAll_cons] at h
    match hres : findRow s (e.size.x + padding) (e.size.y + padding) with
    | none => rw [hres] at h; exact absurd h (by simp)
    | some (s1, none) =>
      rw [hres] at h
      have hent := findRow_entries hres
      obtain ⟨np, hnp1, hnp2, hnp3, hnp4, hnp5, hnp6⟩ := placeAll_run h hnd'
      refine ⟨(e.name, none) :: np, ?_, ?_, ?_, ?_, ?_, ?_⟩
      · rw [hnp1]
        simp
      · simp [hnp2]
      · rw [hnp3]
        simp
      · intro n hn
        simp only [List.map_cons, List.mem_cons, not_or] at hn
        rw [hnp4 n hn.2, hent]
      · intro n rect hmem
        rcases List.mem_cons.mp hmem with hmem | hmem
        · exact absurd hmem (by simp)
        · rw [hnp5 n rect hmem, hent]
      · intro n hmem
        rcases List.mem_cons.mp hmem with hmem | hmem
        · obtain rfl : n = e.name := by simpa using hmem
          rw [hnp4 e.name hout, hent]
        · rw [hnp6 n hmem, hent]
    | some (s1, some i) =>
      rw [hres] at h
      have hent := findRow_entries hres
      obtain ⟨np, hnp1, hnp2, hnp3, hnp4, hnp5, hnp6⟩ := placeAll_run h hnd'
      set rect : TexRect :=
        ⟨(s1.imageRows.getD i ⟨0, 0, 0⟩).width,
          (s1.imageRows.getD i ⟨0, 0, 0⟩).position,
          (s1.imageRows.getD i ⟨0, 0, 0⟩).width + e.size.x,
          (s1.imageRows.getD i ⟨0, 0, 0⟩).position + e.size.y⟩ with hrect
      have hlook : ∀ n : String,
          lookupEntry n (setEntryRect e.name rect s1.entries)
            = if n = e.name then
                (lookupEntry n s.entries).map
                  (fun e0 => { e0 with texCoords := rect })
              else lookupEntry n s.entries := by
        intro n
        rw [lookup_setEntryRect, hent]
      refine ⟨(e.name, some rect) :: np, ?_, ?_, ?_, ?_, ?_, ?_⟩
      · rw [hnp1]
        simp
      · simp [hnp2]
      · rw [hnp3]
        simp
      · intro n hn
        simp only [List.map_cons, List.mem_cons, not_or] at hn
        exact (hnp4 n hn.2).trans ((hlook n).trans (if_neg hn.1))
      · intro n rect' hmem
        rcases List.mem_cons.mp hmem with hmem | hmem
        · have h1 : n = e.name ∧ rect' = rect := by simpa using hmem
          obtain ⟨rfl, rfl⟩ := h1
          exact (hnp4 e.name hout).trans ((hlook e.name).trans (if_pos rfl))
        · have hne : n ≠ e.name := by
            intro hc
            apply hout
            rw [← hnp2]
            exact hc ▸ List.mem_map.mpr ⟨(n, some rect'), hmem, rfl⟩
          exact (hnp5 n rect' hmem).trans
            (congrArg (Option.map _) ((hlook n).trans (if_neg hne)))
      · intro n hmem
        rcases List.mem_cons.mp hmem with hmem | hmem
        · exact absurd hmem (by simp)
        · have hne : n ≠ e.name := by
            intro hc
            apply hout
            rw [← hnp2]
            exact hc ▸ List.mem_map.mpr ⟨(n, none), hmem, rfl⟩
          exact (hnp6 n hmem).trans ((hlook n).trans (if_neg hne))

/-- C2: `Allocate` returns `true` iff every processed entry obtained a row
(the per-entry outcomes cover exactly the processing order, which with
distinct names is a permutation of the registered entries); entries that
fit are placed — the registry record of a successfully placed name carries
exactly the recorded rectangle — while a failed entry's rectangle is left
unmodified, and processing continues past failures (every registered entry
has an outcome). -/
theorem C2_success_semantics (s : AllocState)
    (hnd : (s.entries.map (fun e => e.name)).Nodup) :
    ∀ r : AllocResult, allocate s = some r →
      (r.success = true ↔ ∀ o ∈ r.outcomes, (o.2).isSome = true) ∧
      r.outcomes.map (fun o => o.1)
        = (processingOrder s.entries).map (fun e => e.name) ∧
      (∀ (n : String) (rect : TexRect), (n, some rect) ∈ r.outcomes →
        lookupEntry n r.state.entries
          = (lookupEntry n s.entries).map
              (fun e0 => { e0 with texCoords := rect })) ∧
      (∀ n : String, (n, none) ∈ r.outcomes →
        lookupEntry n r.state.entries = lookupEntry n s.entries) := by
  intro r h
  rw [allocate_eq] at h
  split at h
  · exact absurd h (by simp)
  rename_i s2 hest
  split at h
  · exact absurd h (by simp)
  rename_i s3 ok outs hpl
  · simp only [Option.some.injEq] at h
    subst h
    obtain ⟨a, rfl⟩ := estimateNeededSize_shape hest
    have hordnd : ((processingOrder s.entries).map (fun e => e.name)).Nodup :=
      ((processingOrder_perm s.entries hnd).map (fun e => e.name)).nodup_iff.mpr hnd
    obtain ⟨np, hnp1, hnp2, hnp3, hnp4, hnp5, hnp6⟩ := placeAll_run hpl hordnd
    dsimp only
    rw [hnp1]
    simp only [List.nil_append]
    refine ⟨?_, hnp2, ?_, ?_⟩
    · rw [hnp3]
      simp [List.all_eq_true]
    · intro n rect hmem
      exact hnp5 n rect hmem
    · intro n hmem
      exact hnp6 n hmem

/-- Witness for C2 at a concrete one-entry pass (computed run). -/
theorem C2_success_semantics_witness :
    (c2Out.success = true ↔ ∀ o ∈ c2Out.outcomes, (o.2).isSome = true) ∧
    c2Out.outcomes.map (fun o => o.1)
      = (processingOrder c2In.entries).map (fun e => e.name) ∧
    (∀ (n : String) (rect : TexRect), (n, some rect) ∈ c2Out.outcomes →
      lookupEntry n c2Out.state.entries
        = (lookupEntry n c2In.entries).map
            (fun e0 => { e0 with texCoords := rect })) ∧
    (∀ n : String, (n, none) ∈ c2Out.outcomes →
      lookupEntry n c2Out.state.entries = lookupEntry n c2In.entries) :=
  C2_success_semantics c2In (by decide) c2Out (by decide)

/-! ### C1: no overlap and in-bounds placement -/

theorem rowsExtend_refl (l : List Row) : rowsExtend l l :=
  fun i r h => ⟨r, h, rfl, rfl, le_refl _⟩

theorem rowsExtend_trans {l1 l2 l3 : List Row} (h1 : rowsExtend l1 l2)
    (h2 : rowsExtend l2 l3) : rowsExtend l1 l3 := by
  intro i r h
  obtain ⟨r', h', hp, hh, hw⟩ := h1 i r h
  obtain ⟨r'', h'', hp', hh', hw'⟩ := h2 i r' h'
  exact ⟨r'', h'', hp'.trans hp, hh'.trans hh, hw.trans hw'⟩

theorem PlacedOK_mono {p : Int} {l l' : List Row} (hext : rowsExtend l l')
    {o : String × Option TexRect} (h : PlacedOK p l o) : PlacedOK p l' o := by
  intro rect hrect
  obtain ⟨i, r, hget, h1, h2, h3, h4⟩ := h rect hrect
  obtain ⟨r', hget', hp, hh, hw⟩ := hext i r hget
  exact ⟨i, r', hget', h1, h2.trans hw, hp ▸ h3, by rw [hp, hh]; exact h4⟩

theorem sum_take_le_sum {H : List Int} (hn : ∀ x ∈ H, 0 ≤ x) (i : Nat) :
    (H.take i).sum ≤ H.sum := by
  conv_rhs => rw [← List.take_append_drop i H]
  rw [List.sum_append]
  have : 0 ≤ (H.drop i).sum :=
    List.sum_nonneg (fun x hx => hn x (List.drop_subset i H hx))
  omega

theorem sum_take_mono {H : List Int} (hn : ∀ x ∈ H, 0 ≤ x) {i j : Nat}
    (hij : i ≤ j) : (H.take i).sum ≤ (H.take j).sum := by
  have h1 : H.take j = H.take i ++ ((H.drop i).take (j - i)) := by
    rw [← List.take_add]
    congr 1
    omega
  rw [h1, List.sum_append]
  have : 0 ≤ ((H.drop i).take (j - i)).sum :=
    List.sum_nonneg (fun x hx =>
      hn x (List.drop_subset i H (List.take_subset _ _ hx)))
  omega

theorem sum_take_succ_of_get? {H : List Int} {i : Nat} {h : Int}
    (hget : H.get? i = some h) :
    (H.take (i + 1)).sum = (H.take i).sum + h := by
  induction H generalizing i with
  | nil => simp at hget
  | cons x t ih =>
    match i with
    | 0 =>
      simp only [List.get?_cons_zero, Option.some.injEq] at hget
      simp [hget]
    | i + 1 =>
      simp only [List.get?_cons_succ] at hget
      simp only [List.take_succ_cons, List.sum_cons, ih hget]
      omega

/-- Two distinct rows of a well-formed store occupy disjoint vertical
bands, ordered by index. -/
theorem rows_bands_ordered {s : AllocState} (hwf : RowsWF s) {i j : Nat}
    {ri rj : Row} (hi : s.imageRows.get? i = some ri)
    (hj : s.imageRows.get? j = some rj) (hij : i < j) :
    ri.position + ri.height ≤ rj.position := by
  obtain ⟨-, hrows⟩ := hwf
  have hhn : ∀ x ∈ s.imageRows.map (fun r => r.height), 0 ≤ x := by
    intro x hx
    obtain ⟨r, hr, rfl⟩ := List.mem_map.mp hx
    obtain ⟨k, hk⟩ := List.get?_of_mem hr
    exact (hrows k r hk).2.1
  have hgi : (s.imageRows.map (fun r => r.height)).get? i = some ri.height := by
    rw [List.get?_map, hi]
    rfl
  have h1 := (hrows i ri hi).1
  have h2 := (hrows j rj hj).1
  rw [h1, h2]
  rw [← sum_take_succ_of_get? hgi]
  exact sum_take_mono hhn (by omega)

/-- A row's band ends at or before the total height sum. -/
theorem row_band_le_total {s : AllocState} (hwf : RowsWF s) {i : Nat}
    {ri : Row} (hi : s.imageRows.get? i = some ri) :
    ri.position + ri.height ≤ s.nextRowPos := by
  obtain ⟨hnrp, hrows⟩ := hwf
  have hhn : ∀ x ∈ s.imageRows.map (fun r => r.height), 0 ≤ x := by
    intro x hx
    obtain ⟨r, hr, rfl⟩ := List.mem_map.mp hx
    obtain ⟨k, hk⟩ := List.get?_of_mem hr
    exact (hrows k r hk).2.1
  have hgi : (s.imageRows.map (fun r => r.height)).get? i = some ri.height := by
    rw [List.get?_map, hi]
    rfl
  rw [(hrows i ri hi).1, hnrp, ← sum_take_succ_of_get? hgi]
  exact sum_take_le_sum hhn (i + 1)

/-- A row's position is nonnegative in a well-formed store. -/
theorem row_position_nonneg {s : AllocState} (hwf : RowsWF s) {i : Nat}
    {ri : Row} (hi : s.imageRows.get? i = some ri) : 0 ≤ ri.position := by
  obtain ⟨-, hrows⟩ := hwf
  have hhn : ∀ x ∈ s.imageRows.map (fun r => r.height), 0 ≤ x := by
    intro x hx
    obtain ⟨r, hr, rfl⟩ := List.mem_map.mp hx
    obtain ⟨k, hk⟩ := List.get?_of_mem hr
    exact (hrows k r hk).2.1
  rw [(hrows i ri hi).1]
  exact List.sum_nonneg (fun x hx => hhn x (List.take_subset _ _ hx))

theorem get?_set_self' {l : List Row} {i : Nat} {r : Row}
    (h : l.get? i = some r) (v : Row) : (l.set i v).get? i = some v := by
  have hlen : i < l.length := by
    rw [List.get?_eq_getElem?] at h
    exact (List.getElem?_eq_some_iff.mp h).1
  rw [List.get?_eq_getElem?]
  exact List.getElem?_set_self hlen

theorem get?_set_other {l : List Row} {i j : Nat} (h : i ≠ j) (v : Row) :
    (l.set i v).get? j = l.get? j := by
  rw [List.get?_eq_getElem?, List.get?_eq_getElem?]
  exact List.getElem?_set_ne h

theorem getD_of_get? {l : List Row} {i : Nat} {r : Row}
    (h : l.get? i = some r) (d : Row) : l.getD i d = r := by
  rw [List.getD_eq_getElem?_getD, ← List.get?_eq_getElem?, h]
  rfl

theorem rowsExtend_set {l : List Row} {i : Nat} {r : Row}
    (hget : l.get? i = some r) {v : Row} (hp : v.position = r.position)
    (hh : v.height = r.height) (hw : r.width ≤ v.width) :
    rowsExtend l (l.set i v) := by
  intro j rj hj
  by_cases hij : i = j
  · subst hij
    obtain rfl : r = rj := by rw [hget] at hj; exact Option.some.inj hj
    exact ⟨v, get?_set_self' hget v, hp, hh, hw⟩
  · exact ⟨rj, by rw [get?_set_other hij]; exact hj, rfl, rfl, le_refl _⟩

theorem rowsExtend_append (l t : List Row) : rowsExtend l (l ++ t) := by
  intro i r h
  have hlen : i < l.length := by
    rw [List.get?_eq_getElem?] at h
    exact (List.getElem?_eq_some_iff.mp h).1
  refine ⟨r, ?_, rfl, rfl, le_refl _⟩
  rw [List.get?_eq_getElem?, List.getElem?_append_left hlen,
    ← List.get?_eq_getElem?]
  exact h

/-- The estimator's loop never shrinks the width and keeps it within the
maximum. -/
theorem estLoopF_x_facts {m : Int2} {needed : Int} :
    ∀ {fuel : Nat} {a : Int2} {free : Int} {a' : Int2} {free' : Int},
      estLoopF m needed fuel a free = some (a', free') → 0 ≤ a.x →
      a.x ≤ m.x → a.x ≤ a'.x ∧ a'.x ≤ m.x
  | fuel, a, free, a', free', h, hx0, hxm => by
    by_cases h1 : slackLt free needed
    · by_cases h2 : m.x ≤ a.x ∧ m.y ≤ a.y
      · rw [estLoopF_exit fuel (Or.inr h2)] at h
        obtain ⟨rfl, rfl⟩ : a = a' ∧ free = free' := by simpa using h
        exact ⟨le_refl _, hxm⟩
      · match fuel with
        | 0 =>
          rw [show estLoopF m needed 0 a free = none by
            unfold estLoopF; simp [h1, h2]] at h
          exact absurd h (by simp)
        | n + 1 =>
          rw [estLoopF_step n h1 h2] at h
          have hstep : a.x ≤ (estStep m (a, free)).1.x ∧
              (estStep m (a, free)).1.x ≤ m.x := by
            unfold estStep
            by_cases hg1 : a.x * 2 ≤ m.x <;> by_cases hg2 : a.y * 2 ≤ m.y <;>
              simp [hg1, hg2] <;> omega
          obtain ⟨h3, h4⟩ := estLoopF_x_facts h (by omega) hstep.2
          exact ⟨le_trans hstep.1 h3, h4⟩
    · rw [estLoopF_exit fuel (Or.inl h1)] at h
      obtain ⟨rfl, rfl⟩ : a = a' ∧ free = free' := by simpa using h
      exact ⟨le_refl _, hxm⟩

/-- `AddRow`'s loop never shrinks the width and keeps it within the
maximum. -/
theorem addRowLoopF_x_facts {m : Int2} {nrp hh : Int} :
    ∀ {fuel : Nat} {a : Int2} {a' : Int2} {b : Bool},
      addRowLoopF m nrp hh fuel a = some (a', b) → 0 ≤ a.x → a.x ≤ m.x →
      a.x ≤ a'.x ∧ a'.x ≤ m.x
  | fuel, a, a', b, h, hx0, hxm => by
    by_cases h1 : a.y < nrp + hh
    · by_cases h2 : m.x ≤ a.x ∧ m.y ≤ a.y
      · rw [addRowLoopF_fail fuel h1 h2] at h
        obtain ⟨rfl, rfl⟩ : a = a' ∧ (false : Bool) = b := by simpa using h
        exact ⟨le_refl _, hxm⟩
      · match fuel with
        | 0 =>
          rw [show addRowLoopF m nrp hh 0 a = none by
            unfold addRowLoopF; rw [if_pos h1, if_neg h2]] at h
          exact absurd h (by simp)
        | n + 1 =>
          rw [addRowLoopF_step n h1 h2] at h
          have hstep : a.x ≤ (growA m a).x ∧ (growA m a).x ≤ m.x := by
            unfold growA
            constructor <;> simp only [] <;> omega
          obtain ⟨h3, h4⟩ := addRowLoopF_x_facts h (by omega) hstep.2
          exact ⟨le_trans hstep.1 h3, h4⟩
    · rw [addRowLoopF_host fuel (by omega)] at h
      obtain ⟨rfl, rfl⟩ : a = a' ∧ (true : Bool) = b := by simpa using h
      exact ⟨le_refl _, hxm⟩

/-- Geometric anatomy of `AddRow`: the width never shrinks and stays within
the maximum; `maxsize` and the registry are untouched; the result either
fails with the row store untouched, or appends exactly one fresh row at
`nextRowPos` of height `gh` with a zero cursor. -/
theorem addRow_geom {s : AllocState} {gw gh : Int} {s' : AllocState}
    {io : Option Nat} (h : addRow s gw gh = some (s', io))
    (hx0 : 0 ≤ s.atlasSize.x) (hxm : s.atlasSize.x ≤ s.maxsize.x) :
    s.atlasSize.x ≤ s'.atlasSize.x ∧ s'.atlasSize.x ≤ s'.maxsize.x ∧
    s'.maxsize = s.maxsize ∧ s'.entries = s.entries ∧
    ((io = none ∧ s'.imageRows = s.imageRows ∧
        s'.nextRowPos = s.nextRowPos) ∨
      (io = some s.imageRows.length ∧
        s'.imageRows = s.imageRows ++ [⟨s.nextRowPos, gh, 0⟩] ∧
        s'.nextRowPos = s.nextRowPos + gh)) := by
  unfold addRow at h
  match hres : addRowLoopF s.maxsize s.nextRowPos gh
      (estFuel s.maxsize s.atlasSize) s.atlasSize with
  | none => rw [hres] at h; exact absurd h (by simp)
  | some (a, false) =>
    rw [hres] at h
    simp only [Option.some.injEq, Prod.mk.injEq] at h
    obtain ⟨rfl, rfl⟩ := h.symm
    obtain ⟨hm1, hm2⟩ := addRowLoopF_x_facts hres hx0 hxm
    exact ⟨hm1, hm2, rfl, rfl, Or.inl ⟨rfl, rfl, rfl⟩⟩
  | some (a, true) =>
    rw [hres] at h
    simp only [Option.some.injEq, Prod.mk.injEq] at h
    obtain ⟨rfl, rfl⟩ := h.symm
    obtain ⟨hm1, hm2⟩ := addRowLoopF_x_facts hres hx0 hxm
    exact ⟨hm1, hm2, rfl, rfl, Or.inr ⟨rfl, rfl, rfl⟩⟩

/-- Geometric anatomy of `FindRow`: monotone width within the maximum,
untouched registry and maxima, and three outcomes — an eligible existing
row is returned with the state untouched; or a fresh row is appended; or
the sentinel is returned with the row store untouched. -/
theorem findRow_geom {s : AllocState} {gw gh : Int} {s' : AllocState}
    {io : Option Nat} (h : findRow s gw gh = some (s', io))
    (hx0 : 0 ≤ s.atlasSize.x) (hxm : s.atlasSize.x ≤ s.maxsize.x) :
    s.atlasSize.x ≤ s'.atlasSize.x ∧ s'.atlasSize.x ≤ s'.maxsize.x ∧
    s'.maxsize = s.maxsize ∧ s'.entries = s.entries ∧
    ((∃ i, io = some i ∧ s' = s ∧ ∃ r, s.imageRows.get? i = some r ∧
        gw ≤ s.atlasSize.x - r.width ∧ gh ≤ r.height) ∨
      (io = some s.imageRows.length ∧
        s'.imageRows = s.imageRows ++ [⟨s.nextRowPos, gh, 0⟩] ∧
        s'.nextRowPos = s.nextRowPos + gh) ∨
      (io = none ∧ s'.imageRows = s.imageRows ∧
        s'.nextRowPos = s.nextRowPos)) := by
  unfold findRow at h
  match hres : findScan s.atlasSize.x gw gh s.imageRows 0 s.atlasSize.x none none with
  | (bw, bh, some i) =>
    rw [hres] at h
    simp only [Option.some.injEq, Prod.mk.injEq] at h
    obtain ⟨rfl, rfl⟩ := h.symm
    obtain ⟨hA, -, -⟩ := findScan_spec s.atlasSize.x gw gh s.imageRows 0
      s.atlasSize.x none none bw bh (some i) hres
    rcases hA with ⟨hA, -, -⟩ | ⟨k, r, hk, hget, helig, -, -⟩
    · exact absurd hA (by simp)
    · obtain rfl : i = k := by
        have := Option.some.inj hk
        omega
      exact ⟨le_refl _, hxm, rfl, rfl,
        Or.inl ⟨i, rfl, rfl, r, hget, helig.1, helig.2⟩⟩
  | (bw, bh, none) =>
    rw [hres] at h
    obtain ⟨hm1, hm2, hms, hent, hcases⟩ := addRow_geom h hx0 hxm
    refine ⟨hm1, hm2, hms, hent, ?_⟩
    rcases hcases with ⟨h1, h2, h3⟩ | ⟨h1, h2, h3⟩
    · exact Or.inr (Or.inr ⟨h1, h2, h3⟩)
    · exact Or.inr (Or.inl ⟨h1, h2, h3⟩)

theorem map_height_set : ∀ (l : List Row) (i : Nat) (r : Row),
    l.get? i = some r → ∀ (v : Row), v.height = r.height →
    (l.set i v).map (fun r => r.height) = l.map (fun r => r.height)
  | [], i, r, hget => by simp at hget
  | x :: t, 0, r, hget => by
    intro v hh
    obtain rfl : x = r := by simpa using hget
    simp [hh]
  | x :: t, i + 1, r, hget => by
    intro v hh
    simp only [List.get?_cons_succ] at hget
    simp only [List.set_cons_succ, List.map_cons]
    rw [map_height_set t i r hget v hh]

/-- `RowsWF` after appending a fresh row of nonnegative height `gh` at
`nextRowPos` (the `AddRow` success case), on a surface at least as wide. -/
theorem rowsWF_append {s s1 : AllocState} (hwf : RowsWF s) {gh : Int}
    (hgh : 0 ≤ gh) (hx0 : 0 ≤ s.atlasSize.x)
    (hrows : s1.imageRows = s.imageRows ++ [⟨s.nextRowPos, gh, 0⟩])
    (hnrp : s1.nextRowPos = s.nextRowPos + gh)
    (hx : s.atlasSize.x ≤ s1.atlasSize.x) : RowsWF s1 := by
  obtain ⟨hw1, hw2⟩ := hwf
  constructor
  · rw [hnrp, hrows, List.map_append, List.sum_append, hw1]
    simp
  · intro j r hj
    rw [hrows] at hj
    have hlen : j < s.imageRows.length + 1 := by
      have := (List.getElem?_eq_some_iff.mp (List.get?_eq_getElem? _ _ ▸ hj)).1
      simpa using this
    by_cases hjl : j < s.imageRows.length
    · rw [List.get?_eq_getElem?, List.getElem?_append_left hjl,
        ← List.get?_eq_getElem?] at hj
      obtain ⟨q1, q2, q3, q4⟩ := hw2 j r hj
      refine ⟨?_, q2, q3, le_trans q4 hx⟩
      rw [hrows, List.map_append,
        List.take_append_of_le_length (by simpa using le_of_lt hjl), q1]
    · obtain rfl : j = s.imageRows.length := by omega
      rw [List.get?_eq_getElem?] at hj
      rw [List.getElem?_append_right (le_refl _)] at hj
      obtain rfl : (⟨s.nextRowPos, gh, 0⟩ : Row) = r := by
        simpa using hj
      refine ⟨?_, hgh, le_refl _, le_trans hx0 hx⟩
      rw [hrows, List.map_append,
        List.take_append_of_le_length (by simp), hw1,
        List.take_of_length_le (by simp)]

/-- `RowsWF` transports to a state with the same rows and `nextRowPos` on a
surface at least as wide. -/
theorem rowsWF_of_shape {s s1 : AllocState} (hwf : RowsWF s)
    (hrows : s1.imageRows = s.imageRows) (hnrp : s1.nextRowPos = s.nextRowPos)
    (hx : s.atlasSize.x ≤ s1.atlasSize.x) : RowsWF s1 := by
  obtain ⟨hw1, hw2⟩ := hwf
  constructor
  · rw [hnrp, hrows, hw1]
  · intro j rj hj
    rw [hrows] at hj
    obtain ⟨q1, q2, q3, q4⟩ := hw2 j rj hj
    exact ⟨by rw [hrows]; exact q1, q2, q3, le_trans q4 hx⟩

/-- `RowsWF` after advancing one row's used-width cursor (the placement
step): position and height unchanged, the new cursor within bounds. -/
theorem rowsWF_set {s s1 : AllocState} (hwf : RowsWF s) {i : Nat} {r v : Row}
    (hget : s.imageRows.get? i = some r) (hvp : v.position = r.position)
    (hvh : v.height = r.height) (hw0 : 0 ≤ v.width)
    (hwx : v.width ≤ s1.atlasSize.x)
    (hrows : s1.imageRows = s.imageRows.set i v)
    (hnrp : s1.nextRowPos = s.nextRowPos)
    (hx : s.atlasSize.x ≤ s1.atlasSize.x) : RowsWF s1 := by
  obtain ⟨hw1, hw2⟩ := hwf
  have hmap : (s.imageRows.set i v).map (fun r => r.height)
      = s.imageRows.map (fun r => r.height) :=
    map_height_set s.imageRows i r hget v hvh
  constructor
  · rw [hnrp, hrows, hmap, hw1]
  · intro j rj hj
    rw [hrows] at hj
    by_cases hij : i = j
    · subst hij
      rw [get?_set_self' hget v] at hj
      obtain rfl : v = rj := Option.some.inj hj
      refine ⟨?_, by rw [hvh]; exact (hw2 i r hget).2.1, hw0, hwx⟩
      rw [hrows, hmap, hvp, (hw2 i r hget).1]
    · rw [get?_set_other hij v] at hj
      obtain ⟨q1, q2, q3, q4⟩ := hw2 j rj hj
      refine ⟨?_, q2, q3, le_trans q4 hx⟩
      rw [hrows, hmap, q1]

/-- The geometric invariant of the placement loop: well-formed rows, sane
width, monotone row extension, every outcome accounted for by its row, and
pairwise disjointness of the padded outcome rectangles. -/
theorem placeAll_geom {p : Int} (hp : 0 ≤ p) :
    ∀ {es : List SAtlasEntry} {s : AllocState} {ok : Bool}
      {outs : List (String × Option TexRect)} {s' : AllocState} {ok' : Bool}
      {outs' : List (String × Option TexRect)},
      placeAll p es s ok outs = some (s', ok', outs') →
      RowsWF s → 0 ≤ s.atlasSize.x → s.atlasSize.x ≤ s.maxsize.x →
      (∀ e ∈ es, 0 ≤ e.size.x ∧ 0 ≤ e.size.y ∧ e.size.x + p ≤ s.atlasSize.x) →
      (∀ o ∈ outs, PlacedOK p s.imageRows o) →
      outs.Pairwise (PDisj p) →
      RowsWF s' ∧ 0 ≤ s'.atlasSize.x ∧ s'.atlasSize.x ≤ s'.maxsize.x ∧
      rowsExtend s.imageRows s'.imageRows ∧ s.atlasSize.x ≤ s'.atlasSize.x ∧
      (∀ o ∈ outs', PlacedOK p s'.imageRows o) ∧
      outs'.Pairwise (PDisj p)
  | [], s, ok, outs, s', ok', outs', h, hwf, hx0, hxm, hes, hpl, hpw => by
    simp only [placeAll, Option.some.injEq, Prod.mk.injEq] at h
    obtain ⟨rfl, -, rfl⟩ := h
    exact ⟨hwf, hx0, hxm, rowsExtend_refl _, le_refl _, hpl, hpw⟩
  | e :: es, s, ok, outs, s', ok', outs', h, hwf, hx0, hxm, hes, hpl, hpw => by
    rw [placeAll_cons] at h
    match hres : findRow s (e.size.x + p) (e.size.y + p) with
    | none => rw [hres] at h; exact absurd h (by simp)
    | some (s1, none) =>
      rw [hres] at h
      obtain ⟨hg1, hg2, hg3, hg4, hcases⟩ := findRow_geom hres hx0 hxm
      have hrnr : s1.imageRows = s.imageRows ∧ s1.nextRowPos = s.nextRowPos := by
        rcases hcases with ⟨i', hio, -⟩ | ⟨hio, -⟩ | ⟨-, h2, h3⟩
        · exact absurd hio (by simp)
        · exact absurd hio (by simp)
        · exact ⟨h2, h3⟩
      have hwf1 : RowsWF s1 := rowsWF_of_shape hwf hrnr.1 hrnr.2 hg1
      have hext1 : rowsExtend s.imageRows s1.imageRows := by
        rw [hrnr.1]
        exact rowsExtend_refl _
      have hes1 : ∀ e' ∈ es, 0 ≤ e'.size.x ∧ 0 ≤ e'.size.y ∧
          e'.size.x + p ≤ s1.atlasSize.x := fun e' he' =>
        ⟨(hes e' (List.mem_cons_of_mem e he')).1,
          (hes e' (List.mem_cons_of_mem e he')).2.1,
          le_trans (hes e' (List.mem_cons_of_mem e he')).2.2 hg1⟩
      have hpl1 : ∀ o ∈ outs ++ [(e.name, none)], PlacedOK p s1.imageRows o := by
        intro o ho
        rcases List.mem_append.mp ho with ho | ho
        · exact PlacedOK_mono hext1 (hpl o ho)
        · obtain rfl : o = (e.name, none) := by simpa using ho
          intro rect hrect
          exact absurd hrect (by simp)
      have hpw1 : (outs ++ [(e.name, none)]).Pairwise (PDisj p) := by
        rw [List.pairwise_append]
        refine ⟨hpw, by simp, ?_⟩
        intro o1 ho1 o2 ho2
        obtain rfl : o2 = (e.name, none) := by simpa using ho2
        intro r1 r2 hr1 hr2
        exact absurd hr2 (by simp)
      obtain ⟨ih1, ih2, ih3, ih4, ih5, ih6, ih7⟩ :=
        placeAll_geom hp h hwf1 (le_trans hx0 hg1) hg2 hes1 hpl1 hpw1
      exact ⟨ih1, ih2, ih3, rowsExtend_trans hext1 ih4, le_trans hg1 ih5,
        ih6, ih7⟩
    | some (s1, some i) =>
      rw [hres] at h
      obtain ⟨hg1, hg2, hg3, hg4, hcases⟩ := findRow_geom hres hx0 hxm
      obtain ⟨hex, hey, hfit⟩ := hes e (List.mem_cons_self e es)
      rcases hcases with ⟨i', hio, hseq, r, hget, hwid, hhei⟩ |
          ⟨hio, hrows1, hnrp1⟩ | ⟨hio, -, -⟩
      · -- an eligible existing row was reused
        obtain rfl : i = i' := Option.some.inj hio
        obtain rfl : s = s1 := hseq.symm
        dsimp only at h
        rw [getD_of_get? hget ⟨0, 0, 0⟩] at h
        have hr0 := (hwf.2 i r hget).2.2.1
        have hwf2 : RowsWF { s with
            entries := setEntryRect e.name ⟨r.width, r.position,
              r.width + e.size.x, r.position + e.size.y⟩ s.entries,
            imageRows := s.imageRows.set i
              { r with width := r.width + (e.size.x + p) } } :=
          rowsWF_set (v := { r with width := r.width + (e.size.x + p) })
            hwf hget rfl rfl
            (show (0 : Int) ≤ r.width + (e.size.x + p) by omega)
            (show r.width + (e.size.x + p) ≤ s.atlasSize.x by omega)
            rfl rfl (le_refl _)
        have hext2 : rowsExtend s.imageRows
            (s.imageRows.set i { r with width := r.width + (e.size.x + p) }) :=
          rowsExtend_set hget rfl rfl
            (by show r.width ≤ r.width + (e.size.x + p); omega)
        have hgetv := get?_set_self' hget
          { r with width := r.width + (e.size.x + p) }
        have hpl2 : ∀ o ∈ outs ++ [(e.name,
            some ⟨r.width, r.position, r.width + e.size.x,
              r.position + e.size.y⟩)], PlacedOK p
            (s.imageRows.set i { r with width := r.width + (e.size.x + p) }) o := by
          intro o ho
          rcases List.mem_append.mp ho with ho | ho
          · exact PlacedOK_mono hext2 (hpl o ho)
          · obtain rfl : o = (e.name, some ⟨r.width, r.position,
                r.width + e.size.x, r.position + e.size.y⟩) := by simpa using ho
            intro rect hrect
            obtain rfl : (⟨r.width, r.position, r.width + e.size.x,
                r.position + e.size.y⟩ : TexRect) = rect := Option.some.inj hrect
            refine ⟨i, _, hgetv, hr0, ?_, rfl, ?_⟩
            · show r.width + e.size.x + p ≤ r.width + (e.size.x + p)
              omega
            · show r.position + e.size.y + p ≤ r.position + r.height
              omega
        have hpw2 : (outs ++ [(e.name,
            some (⟨r.width, r.position, r.width + e.size.x,
              r.position + e.size.y⟩ : TexRect))]).Pairwise (PDisj p) := by
          rw [List.pairwise_append]
          refine ⟨hpw, by simp, ?_⟩
          intro o1 ho1 o2 ho2
          obtain rfl : o2 = (e.name, some ⟨r.width, r.position,
              r.width + e.size.x, r.position + e.size.y⟩) := by simpa using ho2
          intro r1 r2 hr1 hr2
          obtain rfl : (⟨r.width, r.position, r.width + e.size.x,
              r.position + e.size.y⟩ : TexRect) = r2 := Option.some.inj hr2
          obtain ⟨j, rj, hgetj, q1, q2, q3, q4⟩ := hpl o1 ho1 r1 hr1
          by_cases hij : j = i
          · subst hij
            obtain rfl : rj = r := by
              rw [hgetj] at hget
              exact Option.some.inj hget
            exact Or.inl q2
          · rcases Nat.lt_or_ge j i with hlt | hge
            · have hband := rows_bands_ordered hwf hgetj hget hlt
              exact Or.inr (Or.inr (Or.inl (by
                show r1.y2 + p ≤ r.position
                omega)))
            · have hlt2 : i < j := by omega
              have hband := rows_bands_ordered hwf hget hgetj hlt2
              refine Or.inr (Or.inr (Or.inr ?_))
              show r.position + e.size.y + p ≤ r1.y1
              rw [q3]
              omega
        have hes2 : ∀ e' ∈ es, 0 ≤ e'.size.x ∧ 0 ≤ e'.size.y ∧
            e'.size.x + p ≤ s.atlasSize.x := fun e' he' =>
          hes e' (List.mem_cons_of_mem e he')
        obtain ⟨ih1, ih2, ih3, ih4, ih5, ih6, ih7⟩ :=
          placeAll_geom hp h hwf2 hx0 hxm hes2 hpl2 hpw2
        exact ⟨ih1, ih2, ih3, rowsExtend_trans hext2 ih4, ih5, ih6, ih7⟩
      · -- a fresh row was created for the entry
        obtain rfl : i = s.imageRows.length := Option.some.inj hio
        have hget1 : s1.imageRows.get? s.imageRows.length
            = some ⟨s.nextRowPos, e.size.y + p, 0⟩ := by
          rw [hrows1, List.get?_eq_getElem?,
            List.getElem?_append_right (le_refl _)]
          simp
        dsimp only at h
        rw [getD_of_get? hget1 ⟨0, 0, 0⟩] at h
        have hwf1 : RowsWF s1 := rowsWF_append hwf (by omega) hx0 hrows1 hnrp1 hg1
        have hext1 : rowsExtend s.imageRows s1.imageRows := by
          rw [hrows1]
          exact rowsExtend_append _ _
        have hwf2 : RowsWF { s1 with
            entries := setEntryRect e.name ⟨0, s.nextRowPos, 0 + e.size.x,
              s.nextRowPos + e.size.y⟩ s1.entries,
            imageRows := s1.imageRows.set s.imageRows.length
              { position := s.nextRowPos, height := e.size.y + p,
                width := 0 + (e.size.x + p) } } :=
          rowsWF_set
            (v := (⟨s.nextRowPos, e.size.y + p, 0 + (e.size.x + p)⟩ : Row))
            hwf1 hget1 rfl rfl
            (show (0 : Int) ≤ 0 + (e.size.x + p) by omega)
            (show 0 + (e.size.x + p) ≤ s1.atlasSize.x by
              have := le_trans hfit hg1
              omega)
            rfl rfl (le_refl _)
        have hext2 : rowsExtend s1.imageRows
            (s1.imageRows.set s.imageRows.length
              { position := s.nextRowPos, height := e.size.y + p,
                width := 0 + (e.size.x + p) }) :=
          rowsExtend_set hget1 rfl rfl
            (by show (0 : Int) ≤ 0 + (e.size.x + p); omega)
        have hgetv := get?_set_self' hget1
          { position := s.nextRowPos, height := e.size.y + p,
            width := 0 + (e.size.x + p) }
        have hpl2 : ∀ o ∈ outs ++ [(e.name,
            some ⟨0, s.nextRowPos, 0 + e.size.x, s.nextRowPos + e.size.y⟩)],
            PlacedOK p (s1.imageRows.set s.imageRows.length
              { position := s.nextRowPos, height := e.size.y + p,
                width := 0 + (e.size.x + p) }) o := by
          intro o ho
          rcases List.mem_append.mp ho with ho | ho
          · exact PlacedOK_mono (rowsExtend_trans hext1 hext2) (hpl o ho)
          · obtain rfl : o = (e.name, some ⟨0, s.nextRowPos, 0 + e.size.x,
                s.nextRowPos + e.size.y⟩) := by simpa using ho
            intro rect hrect
            obtain rfl : (⟨0, s.nextRowPos, 0 + e.size.x,
                s.nextRowPos + e.size.y⟩ : TexRect) = rect := Option.some.inj hrect
            refine ⟨s.imageRows.length, _, hgetv, le_refl _, ?_, rfl, ?_⟩
            · show 0 + e.size.x + p ≤ 0 + (e.size.x + p)
              omega
            · show s.nextRowPos + e.size.y + p ≤ s.nextRowPos + (e.size.y + p)
              omega
        have hpw2 : (outs ++ [(e.name,
            some (⟨0, s.nextRowPos, 0 + e.size.x,
              s.nextRowPos + e.size.y⟩ : TexRect))]).Pairwise (PDisj p) := by
          rw [List.pairwise_append]
          refine ⟨hpw, by simp, ?_⟩
          intro o1 ho1 o2 ho2
          obtain rfl : o2 = (e.name, some ⟨0, s.nextRowPos, 0 + e.size.x,
              s.nextRowPos + e.size.y⟩) := by simpa using ho2
          intro r1 r2 hr1 hr2
          obtain rfl : (⟨0, s.nextRowPos, 0 + e.size.x,
              s.nextRowPos + e.size.y⟩ : TexRect) = r2 := Option.some.inj hr2
          obtain ⟨j, rj, hgetj, q1, q2, q3, q4⟩ := hpl o1 ho1 r1 hr1
          have hband := row_band_le_total hwf hgetj
          exact Or.inr (Or.inr (Or.inl (by
            show r1.y2 + p ≤ s.nextRowPos
            omega)))
        have hes2 : ∀ e' ∈ es, 0 ≤ e'.size.x ∧ 0 ≤ e'.size.y ∧
            e'.size.x + p ≤ s1.atlasSize.x := fun e' he' =>
          ⟨(hes e' (List.mem_cons_of_mem e he')).1,
            (hes e' (List.mem_cons_of_mem e he')).2.1,
            le_trans (hes e' (List.mem_cons_of_mem e he')).2.2 hg1⟩
        obtain ⟨ih1, ih2, ih3, ih4, ih5, ih6, ih7⟩ :=
          placeAll_geom hp h hwf2 (le_trans hx0 hg1) hg2 hes2 hpl2 hpw2
        exact ⟨ih1, ih2, ih3,
          rowsExtend_trans hext1 (rowsExtend_trans hext2 ih4),
          le_trans hg1 ih5, ih6, ih7⟩
      · exact absurd hio (by simp)

/-- The estimator never shrinks the surface width and keeps it within the
maximum. -/
theorem estimateNeededSize_x_facts {s s2 : AllocState}
    (h : estimateNeededSize s = some s2) (hx0 : 0 ≤ s.atlasSize.x)
    (hxm : s.atlasSize.x ≤ s.maxsize.x) :
    s.atlasSize.x ≤ s2.atlasSize.x ∧ s2.atlasSize.x ≤ s2.maxsize.x := by
  unfold estimateNeededSize at h
  match hres : estLoopF s.maxsize (spaceNeededOf s.entries)
      (estFuel s.maxsize s.atlasSize) s.atlasSize (spaceFreeOf s) with
  | none => rw [hres] at h; exact absurd h (by simp)
  | some (a, f) =>
    rw [hres] at h
    simp only [Option.some.injEq] at h
    subst h
    exact estLoopF_x_facts hres hx0 hxm

/-- Every element of the processing order is a registered entry. -/
theorem mem_processingOrder {l : List SAtlasEntry} {e : SAtlasEntry}
    (h : e ∈ processingOrder l) : e ∈ l := by
  unfold processingOrder at h
  have h2 := (stableSortByCmp_perm compareTex _).mem_iff.mp h
  obtain ⟨n, hn, hl⟩ := List.mem_filterMap.mp h2
  unfold lookupEntry at hl
  exact List.mem_of_find?_eq_some hl

/-- C1 counterexample: the pass places the 50-wide entry on the 16-wide
surface (which is already at its maximum width), reports success, and
records a rectangle whose right edge 50 lies far outside
`[0, surfaceWidth) = [0, 16)` — the in-bounds half of the claim fails. -/
theorem C1_counterexample :
    (allocate c1Bad).map (fun r => (r.success, r.state.atlasSize.x, r.outcomes))
      = some (true, 16, [("z", some ⟨0, 0, 50, 8⟩)]) ∧
    (allocate c1Bad).map (fun r => r.state.atlasSize.y) = some 9 ∧
    ¬ rectInBounds 16 9 ⟨0, 0, 50, 8⟩ := by
  exact ⟨by decide, by decide, by decide⟩

/-- C1 (amended): provided every registered entry is nonnegative in size
and its padded width fits the initial surface width, a pass places
rectangles that are pairwise disjoint even after padding, and every placed
rectangle lies within `[0, surfaceWidth) × [0, surfaceHeight)` of the final
surface (without the width-fit hypothesis the in-bounds half fails — see
the counterexample — while the no-overlap half of the claim survives in the
row geometry regardless, every recorded rectangle being accounted for by
its row). -/
theorem C1_no_overlap_in_bounds (s : AllocState) (res : AllocResult)
    (hrun : allocate s = some res) (hwf : RowsWF s)
    (hx0 : 0 ≤ s.atlasSize.x) (hxm : s.atlasSize.x ≤ s.maxsize.x)
    (hsz : ∀ e ∈ s.entries, 0 ≤ e.size.x ∧ 0 ≤ e.size.y)
    (hfit : ∀ e ∈ s.entries, e.size.x + paddingOf s ≤ s.atlasSize.x) :
    res.outcomes.Pairwise (PDisj (paddingOf s)) ∧
    ∀ o ∈ res.outcomes, ∀ rect, o.2 = some rect →
      rectInBounds res.state.atlasSize.x res.state.atlasSize.y rect := by
  rw [allocate_eq] at hrun
  split at hrun
  · exact absurd hrun (by simp)
  rename_i s2 hest
  split at hrun
  · exact absurd hrun (by simp)
  rename_i s3 ok outs hpl
  simp only [Option.some.injEq] at hrun
  subst hrun
  have hx1 := estimateNeededSize_x_facts hest hx0 hxm
  obtain ⟨a, hs2⟩ := estimateNeededSize_shape hest
  have hent2 : s2.entries = s.entries := by rw [hs2]
  have hnum2 : s2.numLevels = s.numLevels := by rw [hs2]
  have hrows2 : s2.imageRows = s.imageRows := by rw [hs2]
  have hnrp2 : s2.nextRowPos = s.nextRowPos := by rw [hs2]
  have hpad : paddingOf s2 = paddingOf s := by
    unfold paddingOf getNumTexLevels
    rw [hent2, hnum2]
  have hp0 : (0 : Int) ≤ paddingOf s2 := pow_nonneg (by norm_num) _
  have hwf2 : RowsWF s2 := rowsWF_of_shape hwf hrows2 hnrp2 hx1.1
  have hes : ∀ e ∈ processingOrder s2.entries, 0 ≤ e.size.x ∧ 0 ≤ e.size.y ∧
      e.size.x + paddingOf s2 ≤ s2.atlasSize.x := by
    intro e he
    rw [hent2] at he
    have hmem := mem_processingOrder he
    refine ⟨(hsz e hmem).1, (hsz e hmem).2, ?_⟩
    rw [hpad]
    exact le_trans (hfit e hmem) hx1.1
  obtain ⟨hwf3, hx03, hxm3, hext3, hxle3, hplaced3, hpw3⟩ :=
    placeAll_geom hp0 hpl hwf2 (le_trans hx0 hx1.1) hx1.2 hes
      (by intro o ho; exact absurd ho (by simp)) List.Pairwise.nil
  rw [hpad] at hplaced3 hpw3
  refine ⟨hpw3, ?_⟩
  intro o ho rect hrect
  obtain ⟨i, r, hget, q1, q2, q3, q4⟩ := hplaced3 o ho rect hrect
  have hrow := hwf3.2 i r hget
  have hpos := row_position_nonneg hwf3 hget
  have hband := row_band_le_total hwf3 hget
  have hp0' : (0 : Int) ≤ paddingOf s := by rw [← hpad]; exact hp0
  refine ⟨q1, ?_, ?_, ?_⟩
  · show rect.x2 ≤ s3.atlasSize.x
    have := hrow.2.2.2
    omega
  · show 0 ≤ rect.y1
    omega
  · show rect.y2 ≤ s3.nextRowPos
    omega

/-- Witness for C1 at a concrete pass. -/
theorem C1_no_overlap_in_bounds_witness :
    (0 ≤ c1In.atlasSize.x ∧ c1In.atlasSize.x ≤ c1In.maxsize.x) ∧
    (allocate c1In).elim False (fun r =>
      r.outcomes.Pairwise (PDisj (paddingOf c1In)) ∧
      ∀ o ∈ r.outcomes, ∀ rect, o.2 = some rect →
        rectInBounds r.state.atlasSize.x r.state.atlasSize.y rect) := by
  refine ⟨by decide, ?_⟩
  match hres : allocate c1In with
  | none => exact absurd hres (by decide)
  | some r =>
    exact C1_no_overlap_in_bounds c1In r hres
      ⟨rfl, fun i r h => by simp [c1In] at h⟩
      (by decide) (by decide) (by decide) (by decide)

/-! ### C8: determinism across registration orders -/

/-- `spaceNeeded` is invariant under permutation of the registry. -/
theorem spaceNeededOf_perm {l1 l2 : List SAtlasEntry} (h : List.Perm l1 l2) :
    spaceNeededOf l1 = spaceNeededOf l2 := by
  unfold spaceNeededOf
  rw [foldl_add_eq_sum (fun e => e.size.x * e.size.y) l1 0,
    foldl_add_eq_sum (fun e => e.size.x * e.size.y) l2 0,
    (h.map (fun e => e.size.x * e.size.y)).sum_eq]

/-- A right fold of `min` is invariant under permutation. -/
theorem foldr_min_perm {l1 l2 : List Int} (h : List.Perm l1 l2) :
    ∀ b : Int, l1.foldr min b = l2.foldr min b := by
  induction h with
  | nil => intro b; rfl
  | cons x h ih =>
    intro b
    simp only [List.foldr_cons, ih b]
  | swap x y l =>
    intro b
    simp only [List.foldr_cons]
    rw [min_left_comm]
  | trans h1 h2 ih1 ih2 =>
    intro b
    rw [ih1 b, ih2 b]

/-- `GetMinDim` is invariant under permutation of the registry. -/
theorem getMinDim_perm {l1 l2 : List SAtlasEntry} (h : List.Perm l1 l2) :
    getMinDim l1 = getMinDim l2 := by
  unfold getMinDim
  exact foldr_min_perm (h.map (fun e => min e.size.x e.size.y)) _

/-- With distinct names, registry lookup is invariant under permutation. -/
theorem lookupEntry_perm {l1 l2 : List SAtlasEntry} (h : List.Perm l1 l2)
    (hnd : (l1.map (fun e => e.name)).Nodup) (n : String) :
    lookupEntry n l1 = lookupEntry n l2 := by
  unfold lookupEntry
  match hf : l1.find? (fun e => e.name == n) with
  | some e =>
    have hmem := List.mem_of_find?_eq_some hf
    have hpred := List.find?_some hf
    match hf2 : l2.find? (fun e => e.name == n) with
    | some e2 =>
      have hmem2 := h.mem_iff.mpr (List.mem_of_find?_eq_some hf2)
      have hpred2 := List.find?_some hf2
      have he : e = e2 := List.inj_on_of_nodup_map hnd hmem hmem2 (by
        have q1 : e.name = n := by simpa using hpred
        have q2 : e2.name = n := by simpa using hpred2
        rw [q1, q2])
      rw [hf, hf2, he]
    | none =>
      exact absurd hpred (List.find?_eq_none.mp hf2 e (h.mem_iff.mp hmem))
  | none =>
    match hf2 : l2.find? (fun e => e.name == n) with
    | some e2 =>
      exact absurd (List.find?_some hf2)
        (List.find?_eq_none.mp hf e2 (h.mem_iff.mpr (List.mem_of_find?_eq_some hf2)))
    | none => rw [hf, hf2]

/-- Membership in a `std::set` insertion. -/
theorem mem_setInsert {x n : String} :
    ∀ {ns : List String}, x ∈ setInsert n ns → x = n ∨ x ∈ ns
  | [], h => by
    unfold setInsert at h
    simpa using h
  | m :: ms, h => by
    unfold setInsert at h
    split_ifs at h with h1 h2
    · simpa using h
    · rcases List.mem_cons.mp h with rfl | h
      · exact Or.inr (List.mem_cons_self _ _)
      · rcases mem_setInsert h with rfl | h
        · exact Or.inl rfl
        · exact Or.inr (List.mem_cons_of_mem _ h)
    · exact Or.inr h

/-- `std::set` insertion keeps the name list strictly sorted. -/
theorem setInsert_sorted {n : String} :
    ∀ {ns : List String}, ns.Pairwise (· < ·) →
      (setInsert n ns).Pairwise (· < ·)
  | [], _ => by simp [setInsert]
  | m :: ms, hp => by
    obtain ⟨hm, hms⟩ := List.pairwise_cons.mp hp
    unfold setInsert
    split_ifs with h1 h2
    · refine List.pairwise_cons.mpr ⟨?_, hp⟩
      intro x hx
      rcases List.mem_cons.mp hx with rfl | hx
      · exact h1
      · exact lt_trans h1 (hm x hx)
    · refine List.pairwise_cons.mpr ⟨?_, setInsert_sorted hms⟩
      intro x hx
      rcases mem_setInsert hx with rfl | hx
      · exact h2
      · exact hm x hx
    · exact hp

theorem foldl_setInsert_sorted :
    ∀ (l : List SAtlasEntry) (acc : List String), acc.Pairwise (· < ·) →
      (l.foldl (fun a e => setInsert e.name a) acc).Pairwise (· < ·)
  | [], acc, h => h
  | e :: l, acc, h => foldl_setInsert_sorted l _ (setInsert_sorted h)

/-- The `sortedNames` list is strictly sorted. -/
theorem namesSorted_sorted (l : List SAtlasEntry) :
    (namesSorted l).Pairwise (· < ·) :=
  foldl_setInsert_sorted l [] List.Pairwise.nil

/-- With distinct names, the `sortedNames` set does not depend on the
registration order. -/
theorem namesSorted_eq_of_perm {l1 l2 : List SAtlasEntry}
    (h : List.Perm l1 l2) (hnd : (l1.map (fun e => e.name)).Nodup) :
    namesSorted l1 = namesSorted l2 := by
  have hnd2 : (l2.map (fun e => e.name)).Nodup :=
    ((h.map (fun e => e.name)).nodup_iff).mp hnd
  have hp : List.Perm (namesSorted l1) (namesSorted l2) :=
    (namesSorted_perm l1 hnd).trans ((h.map (fun e => e.name)).trans
      (namesSorted_perm l2 hnd2).symm)
  exact List.eq_of_perm_of_sorted hp (namesSorted_sorted l1) (namesSorted_sorted l2)

/-- With distinct names, the whole processing order does not depend on the
registration order. -/
theorem processingOrder_eq_of_perm {l1 l2 : List SAtlasEntry}
    (h : List.Perm l1 l2) (hnd : (l1.map (fun e => e.name)).Nodup) :
    processingOrder l1 = processingOrder l2 := by
  unfold processingOrder
  rw [namesSorted_eq_of_perm h hnd]
  congr 1
  apply List.filterMap_congr
  intro n hn
  exact lookupEntry_perm h hnd n

/-- `AddRow` never reads the registry: swapping it in produces the same
run with the registry swapped in the result. -/
theorem addRow_entries_irrel (s : AllocState) (E : List SAtlasEntry)
    (gw gh : Int) :
    addRow { s with entries := E } gw gh
      = (addRow s gw gh).map (fun q => ({ q.1 with entries := E }, q.2)) := by
  unfold addRow
  dsimp only
  match hres : addRowLoopF s.maxsize s.nextRowPos gh
      (estFuel s.maxsize s.atlasSize) s.atlasSize with
  | none => rfl
  | some (a, false) => rfl
  | some (a, true) => rfl

/-- `FindRow` never reads the registry. -/
theorem findRow_entries_irrel (s : AllocState) (E : List SAtlasEntry)
    (gw gh : Int) :
    findRow { s with entries := E } gw gh
      = (findRow s gw gh).map (fun q => ({ q.1 with entries := E }, q.2)) := by
  unfold findRow
  dsimp only
  match hscan : findScan s.atlasSize.x gw gh s.imageRows 0 s.atlasSize.x
      none none with
  | (bw, bh, some i) => rfl
  | (bw, bh, none) =>
    exact addRow_entries_irrel s E gw gh

/-- The estimator reads the registry only through `spaceNeeded`. -/
theorem estimateNeededSize_entries_irrel (s : AllocState)
    (E : List SAtlasEntry) (hsp : spaceNeededOf E = spaceNeededOf s.entries) :
    estimateNeededSize { s with entries := E }
      = (estimateNeededSize s).map (fun u => { u with entries := E }) := by
  unfold estimateNeededSize
  dsimp only
  rw [hsp]
  have hfree : spaceFreeOf { s with entries := E } = spaceFreeOf s := rfl
  rw [hfree]
  match hres : estLoopF s.maxsize (spaceNeededOf s.entries)
      (estFuel s.maxsize s.atlasSize) s.atlasSize (spaceFreeOf s) with
  | none => rfl
  | some (a, f) => rfl

/-- The placement loop is driven only by the geometry: running it with a
permuted registry (equal per-name lookups) produces the same outcomes,
success flag and geometry, with the final registries again permutations
with equal per-name lookups. -/
theorem placeAll_entries_irrel {p : Int} :
    ∀ (es : List SAtlasEntry) (s : AllocState) (E : List SAtlasEntry)
      (ok : Bool) (outs : List (String × Option TexRect)),
      (∀ n, lookupEntry n s.entries = lookupEntry n E) →
      List.Perm s.entries E →
      ((placeAll p es { s with entries := E } ok outs).isSome
        = (placeAll p es s ok outs).isSome) ∧
      ∀ t' s' okT okS outsT outsS,
        placeAll p es { s with entries := E } ok outs = some (t', okT, outsT) →
        placeAll p es s ok outs = some (s', okS, outsS) →
        okT = okS ∧ outsT = outsS ∧ t'.atlasSize = s'.atlasSize ∧
        t'.maxsize = s'.maxsize ∧ t'.numLevels = s'.numLevels ∧
        t'.nextRowPos = s'.nextRowPos ∧ t'.imageRows = s'.imageRows ∧
        List.Perm s'.entries t'.entries ∧
        ∀ n, lookupEntry n s'.entries = lookupEntry n t'.entries
  | [], s, E, ok, outs, hlook, hperm => by
    constructor
    · rfl
    · intro t' s' okT okS outsT outsS ht hs
      simp only [placeAll, Option.some.injEq, Prod.mk.injEq] at ht hs
      obtain ⟨rfl, rfl, rfl⟩ := ht
      obtain ⟨rfl, rfl, rfl⟩ := hs
      exact ⟨rfl, rfl, rfl, rfl, rfl, rfl, rfl, hperm, hlook⟩
  | e :: es, s, E, ok, outs, hlook, hperm => by
    rw [placeAll_cons p e es { s with entries := E } ok outs,
      placeAll_cons p e es s ok outs]
    match hres : findRow s (e.size.x + p) (e.size.y + p) with
    | none =>
      have hresE : findRow { s with entries := E }
          (e.size.x + p) (e.size.y + p) = none := by
        rw [findRow_entries_irrel s E, hres]
        rfl
      rw [hresE]
      dsimp only
      exact ⟨rfl, fun t' s' okT okS outsT outsS ht hs => absurd hs (by simp)⟩
    | some (s1, none) =>
      have hresE : findRow { s with entries := E }
          (e.size.x + p) (e.size.y + p) = some ({ s1 with entries := E }, none) := by
        rw [findRow_entries_irrel s E, hres]
        rfl
      rw [hresE]
      dsimp only
      have hent1 := findRow_entries hres
      refine placeAll_entries_irrel es s1 E false (outs ++ [(e.name, none)]) ?_ ?_
      · intro n
        rw [hent1]
        exact hlook n
      · rw [hent1]
        exact hperm
    | some (s1, some i) =>
      have hresE : findRow { s with entries := E }
          (e.size.x + p) (e.size.y + p) = some ({ s1 with entries := E }, some i) := by
        rw [findRow_entries_irrel s E, hres]
        rfl
      rw [hresE]
      dsimp only
      have hent1 := findRow_entries hres
      refine placeAll_entries_irrel es
        { s1 with
          entries := setEntryRect e.name
            ⟨(s1.imageRows.getD i ⟨0, 0, 0⟩).width,
              (s1.imageRows.getD i ⟨0, 0, 0⟩).position,
              (s1.imageRows.getD i ⟨0, 0, 0⟩).width + e.size.x,
              (s1.imageRows.getD i ⟨0, 0, 0⟩).position + e.size.y⟩ s1.entries,
          imageRows := s1.imageRows.set i
            { s1.imageRows.getD i ⟨0, 0, 0⟩ with
              width := (s1.imageRows.getD i ⟨0, 0, 0⟩).width
                + (e.size.x + p) } }
        (setEntryRect e.name
          ⟨(s1.imageRows.getD i ⟨0, 0, 0⟩).width,
            (s1.imageRows.getD i ⟨0, 0, 0⟩).position,
            (s1.imageRows.getD i ⟨0, 0, 0⟩).width + e.size.x,
            (s1.imageRows.getD i ⟨0, 0, 0⟩).position + e.size.y⟩ E)
        ok
        (outs ++ [(e.name,
          some ⟨(s1.imageRows.getD i ⟨0, 0, 0⟩).width,
            (s1.imageRows.getD i ⟨0, 0, 0⟩).position,
            (s1.imageRows.getD i ⟨0, 0, 0⟩).width + e.size.x,
            (s1.imageRows.getD i ⟨0, 0, 0⟩).position + e.size.y⟩)])
        ?_ ?_
      · intro n
        show lookupEntry n (setEntryRect e.name _ s1.entries)
          = lookupEntry n (setEntryRect e.name _ E)
        rw [lookup_setEntryRect, lookup_setEntryRect, hent1, hlook n]
      · show List.Perm (setEntryRect e.name _ s1.entries)
          (setEntryRect e.name _ E)
        unfold setEntryRect
        refine List.Perm.map _ ?_
        rw [hent1]
        exact hperm

/-- A whole `Allocate` pass over a permuted registry with distinct names:
same termination, same success flag, same outcome list, same final surface
and rows, and per-name-identical registries. -/
theorem allocate_entries_congr (s : AllocState) (E : List SAtlasEntry)
    (hperm : List.Perm s.entries E)
    (hnd : (s.entries.map (fun e => e.name)).Nodup) :
    ((allocate { s with entries := E }).isSome = (allocate s).isSome) ∧
    ∀ r1 r2, allocate { s with entries := E } = some r1 → allocate s = some r2 →
      r1.success = r2.success ∧ r1.outcomes = r2.outcomes ∧
      r1.state.atlasSize = r2.state.atlasSize ∧
      r1.state.nextRowPos = r2.state.nextRowPos ∧
      r1.state.imageRows = r2.state.imageRows ∧
      ∀ n, lookupEntry n r2.state.entries = lookupEntry n r1.state.entries := by
  rw [allocate_eq { s with entries := E }, allocate_eq s]
  have h1 : ({ { s with entries := E } with
      atlasSize := ⟨({ s with entries := E } : AllocState).atlasSize.x,
        bitCeilI ({ s with entries := E } : AllocState).atlasSize.y⟩ } : AllocState)
      = { { s with atlasSize := ⟨s.atlasSize.x, bitCeilI s.atlasSize.y⟩ } with
          entries := E } := rfl
  rw [h1, estimateNeededSize_entries_irrel
    { s with atlasSize := ⟨s.atlasSize.x, bitCeilI s.atlasSize.y⟩ } E
    (spaceNeededOf_perm hperm).symm]
  match hest : estimateNeededSize
      { s with atlasSize := ⟨s.atlasSize.x, bitCeilI s.atlasSize.y⟩ } with
  | none =>
    dsimp only [Option.map]
    exact ⟨rfl, fun r1 r2 hr1 hr2 => absurd hr2 (by simp)⟩
  | some s2 =>
    dsimp only [Option.map]
    have hs2ent : s2.entries = s.entries := by
      obtain ⟨a, hs2⟩ := estimateNeededSize_shape hest
      rw [hs2]
    have hnd2 : (s2.entries.map (fun e => e.name)).Nodup := by
      rw [hs2ent]
      exact hnd
    have hperm2 : List.Perm s2.entries E := by
      rw [hs2ent]
      exact hperm
    have hpadE : paddingOf { s2 with entries := E } = paddingOf s2 := by
      unfold paddingOf getNumTexLevels
      dsimp only
      rw [getMinDim_perm hperm2.symm]
    have hordE : processingOrder E = processingOrder s2.entries :=
      (processingOrder_eq_of_perm hperm2 hnd2).symm
    rw [hpadE, hordE]
    have hlook : ∀ n, lookupEntry n s2.entries = lookupEntry n E := by
      intro n
      rw [hs2ent]
      exact lookupEntry_perm hperm hnd n
    obtain ⟨hQ, hR⟩ := @placeAll_entries_irrel (paddingOf s2)
      (processingOrder s2.entries) s2 E true [] hlook hperm2
    match hpl : placeAll (paddingOf s2) (processingOrder s2.entries) s2 true [] with
    | none =>
      have hplE : placeAll (paddingOf s2) (processingOrder s2.entries)
          { s2 with entries := E } true [] = none := by
        rw [hpl] at hQ
        cases hplE2 : placeAll (paddingOf s2) (processingOrder s2.entries)
            { s2 with entries := E } true [] with
        | none => rfl
        | some v =>
          rw [hplE2] at hQ
          simp at hQ
      rw [hplE]
      exact ⟨rfl, fun r1 r2 hr1 hr2 => absurd hr2 (by simp)⟩
    | some q =>
      obtain ⟨s3, okS, outsS⟩ := q
      have hplE : ∃ v, placeAll (paddingOf s2) (processingOrder s2.entries)
          { s2 with entries := E } true [] = some v := by
        rw [hpl] at hQ
        cases hplE2 : placeAll (paddingOf s2) (processingOrder s2.entries)
            { s2 with entries := E } true [] with
        | none =>
          rw [hplE2] at hQ
          simp at hQ
        | some v => exact ⟨v, rfl⟩
      obtain ⟨⟨t3, okT, outsT⟩, hplE⟩ := hplE
      rw [hplE]
      dsimp only
      obtain ⟨hok, houts, hatl, hmax, hnum, hnrp, hrows, hperm3, hlook3⟩ :=
        hR t3 s3 okT okS outsT outsS hplE hpl
      refine ⟨rfl, ?_⟩
      intro r1 r2 hr1 hr2
      simp only [Option.some.injEq] at hr1 hr2
      subst hr1
      subst hr2
      refine ⟨hok, houts, ?_, hnrp, hrows, hlook3⟩
      show (⟨t3.atlasSize.x, t3.nextRowPos⟩ : Int2)
        = ⟨s3.atlasSize.x, s3.nextRowPos⟩
      rw [hatl, hnrp]

/-- C8: with distinct names, two `Allocate` passes over the same entry set
(same names and sizes, any registration order) behave identically: both
terminate or both diverge, and on termination the success flag, the
per-entry outcome list (name and exact rectangle, in the identical
processing order), the final surface size, the row store and every
per-name registry record coincide. -/
theorem C8_determinism (s1 s2 : AllocState)
    (ha : s1.atlasSize = s2.atlasSize) (hm : s1.maxsize = s2.maxsize)
    (hn : s1.numLevels = s2.numLevels) (hq : s1.nextRowPos = s2.nextRowPos)
    (hr : s1.imageRows = s2.imageRows)
    (hperm : List.Perm s1.entries s2.entries)
    (hnd : (s1.entries.map (fun e => e.name)).Nodup) :
    ((allocate s1).isSome = (allocate s2).isSome) ∧
    ∀ r1 r2, allocate s1 = some r1 → allocate s2 = some r2 →
      r1.success = r2.success ∧ r1.outcomes = r2.outcomes ∧
      r1.state.atlasSize = r2.state.atlasSize ∧
      r1.state.nextRowPos = r2.state.nextRowPos ∧
      r1.state.imageRows = r2.state.imageRows ∧
      ∀ n, lookupEntry n r1.state.entries = lookupEntry n r2.state.entries := by
  have heta : s2 = { s1 with entries := s2.entries } := by
    obtain ⟨A1, M1, N1, P1, R1, E1⟩ := s1
    obtain ⟨A2, M2, N2, P2, R2, E2⟩ := s2
    dsimp only at ha hm hn hq hr ⊢
    rw [ha, hm, hn, hq, hr]
  obtain ⟨hQ, hR⟩ := allocate_entries_congr s1 s2.entries hperm hnd
  rw [← heta] at hQ hR
  constructor
  · exact hQ.symm
  · intro r1 r2 h1 h2
    obtain ⟨c1, c2, c3, c4, c5, c6⟩ := hR r2 r1 h2 h1
    exact ⟨c1.symm, c2.symm, c3.symm, c4.symm, c5.symm, c6⟩

/-- Witness for C8 at a concrete two-entry registry in both orders. -/
theorem C8_determinism_witness :
    ((allocate c8A).isSome = (allocate c8B).isSome) ∧
    ∀ r1 r2, allocate c8A = some r1 → allocate c8B = some r2 →
      r1.success = r2.success ∧ r1.outcomes = r2.outcomes ∧
      r1.state.atlasSize = r2.state.atlasSize ∧
      r1.state.nextRowPos = r2.state.nextRowPos ∧
      r1.state.imageRows = r2.state.imageRows ∧
      ∀ n, lookupEntry n r1.state.entries = lookupEntry n r2.state.entries :=
  C8_determinism c8A c8B rfl rfl rfl rfl rfl (by decide) (by decide)

end RowAtlas
